import Mathlib

/-!
# Verification of the slot-scheduling core of `sloty_gantt_5_4.py`

Shallow embedding of the brigade/slot booking tool. Datetimes are modelled as
integer minutes since an arbitrary epoch; a calendar day `d` starts at minute
`1440 * d`, and a time-of-day is its minute offset `0 ≤ t < 1440` into a day
(`08:00 ↦ 480`). Python `float` weights are modelled as rationals, and the
random draws consumed by `random.choices` / `random.choice` are passed in as
explicit arguments. Python's stable `list.sort(key=...)` is modelled by
`List.insertionSort` with the ≤-by-key relation: a stable sort that orders by a
given key is unique, so this is exact.
-/

/-! ## Rational arithmetic helpers

`Rat.add` and `Rat.mul` are `@[irreducible]` in the library, so the embedding
uses the following executable equivalents (they normalize through `mkRat`);
`qadd_eq` and `qmul_eq` show they are exactly `+` and `*` on `ℚ`. -/

def qadd (a b : ℚ) : ℚ := mkRat (a.num * b.den + b.num * a.den) (a.den * b.den)

def qmul (a b : ℚ) : ℚ := mkRat (a.num * b.num) (a.den * b.den)

/-! ## Strings

Python compares strings lexicographically by code point; `strLeB` is that
order on `String.data`. -/

def charLeListB : List Char → List Char → Bool
  | [], _ => true
  | _ :: _, [] => false
  | x :: xs, y :: ys =>
    if x.toNat < y.toNat then true
    else if y.toNat < x.toNat then false
    else charLeListB xs ys

def strLeB (a b : String) : Bool := charLeListB a.data b.data

/-! ## Data model (`SlotType`, `Slot`, session state)

`Slot.stop` embeds the source field `end` (a reserved word in Lean).
`State` collects the `st.session_state` fields the scheduling core reads and
writes: the slot-type catalogue, the crew list (`brygady`), per-crew working
hours, and the two-level booking store `schedules : crew ↦ day ↦ slot list`.
-/

structure SlotTypeR where
  name : String
  minutes : Int
  weight : ℚ
deriving DecidableEq

structure Slot where
  start : Int
  stop : Int
  slot_type : String
  duration_min : Int
  client : String
  pref_range : Option String := none
deriving DecidableEq

structure Cand where
  brygada : String
  start : Int
  stop : Int
deriving DecidableEq

structure State where
  slot_types : List SlotTypeR
  brygady : List String
  working_hours : List (String × Int × Int)
  schedules : List (String × List (Int × List Slot))
  client_counter : Nat
deriving DecidableEq

def DEFAULT_WORK_START : Int := 480

def DEFAULT_WORK_END : Int := 960

def SEARCH_STEP_MINUTES : Int := 15

/-! ## Association lists (Python `dict`s)

`alookup` is `d.get(k)`; `aupdate` is `d[k] = v` (replace in place, or append a
fresh key at the end, matching `dict` insertion-order semantics). -/

def alookup {κ α : Type} [DecidableEq κ] : List (κ × α) → κ → Option α
  | [], _ => none
  | (k', v) :: t, k => if k' = k then some v else alookup t k

def aupdate {κ α : Type} [DecidableEq κ] : List (κ × α) → κ → α → List (κ × α)
  | [], k, v => [(k, v)]
  | (k', v') :: t, k, v => if k' = k then (k, v) :: t else (k', v') :: aupdate t k v

/-- Reads `st.session_state.schedules.get(b, {}).get(d, [])`. -/
def schedGet (sched : List (String × List (Int × List Slot))) (b : String) (d : Int) :
    List Slot :=
  (alookup ((alookup sched b).getD []) d).getD []

/-- Write the day list `l` for crew `b`, day `d` (creating both keys if absent),
as done by `schedules.setdefault(...)` / `schedules[b][d] = ...`. -/
def schedSet (sched : List (String × List (Int × List Slot))) (b : String) (d : Int)
    (l : List Slot) : List (String × List (Int × List Slot)) :=
  aupdate sched b (aupdate ((alookup sched b).getD []) d l)

/-! ## Schedule management (source lines 218–252) -/

/-- Key relation of Python's `sort(key=lambda s: s["start"])`. -/
def slotStartLe (a b : Slot) : Prop := a.start ≤ b.start

instance : DecidableRel slotStartLe := fun a b => by unfold slotStartLe; infer_instance

instance : IsTotal Slot slotStartLe := ⟨fun a b => by unfold slotStartLe; omega⟩

instance : IsTrans Slot slotStartLe := ⟨fun a b c => by unfold slotStartLe; omega⟩

/-- Source `get_day_slots_for_brygada` (lines 218–220): the stored day list, sorted by
start ascending. -/
def get_day_slots_for_brygada (st : State) (b : String) (day : Int) : List Slot :=
  (schedGet st.schedules b day).insertionSort slotStartLe

/-- Source `add_slot_to_brygada` (lines 223–232): ensure the crew/day keys exist,
append the slot, re-sort the day list by start. (The `save_state_to_json` call
is persistence, outside the model.) -/
def add_slot_to_brygada (st : State) (b : String) (day : Int) (slot : Slot) : State :=
  { st with
    schedules :=
      schedSet st.schedules b day
        ((schedGet st.schedules b day ++ [slot]).insertionSort slotStartLe) }

/-- Source `delete_slot` (lines 235–243): drop every slot of that crew/day whose start
equals the given timestamp (ISO-string equality of naive datetimes is equality
of the instants). -/
def delete_slot (st : State) (b : String) (day : Int) (startMatch : Int) : State :=
  { st with
    schedules :=
      schedSet st.schedules b day
        ((schedGet st.schedules b day).filter fun s => !decide (s.start = startMatch)) }

/-! ## Windows (overnight rule) -/

/-- The pattern repeated at source lines 248–252, 268–276 and 408–411:
`start_dt = datetime.combine(day, t_start); end_dt = datetime.combine(day, t_end);
if end_dt <= start_dt: end_dt += timedelta(days=1)`. -/
def combineWindow (day s e : Int) : Int × Int :=
  let ds := day * 1440 + s
  let de := day * 1440 + e
  (ds, if de ≤ ds then de + 1440 else de)

/-- Source `_wh_minutes` (lines 246–252): length in minutes of the (overnight-aware)
working-hours window; the reference day (`date.today()`) is irrelevant. -/
def wh_minutes (s e : Int) : Int := (combineWindow 0 s e).2 - (combineWindow 0 s e).1

/-- Reads `st.session_state.working_hours.get(b, (DEFAULT_WORK_START, DEFAULT_WORK_END))`. -/
def lookupWH (st : State) (b : String) : Int × Int :=
  (alookup st.working_hours b).getD (DEFAULT_WORK_START, DEFAULT_WORK_END)

/-! ## Step scan

The loop `t = t0; while t + dur <= end: ...; t += step` visits exactly the
points `t0 + step * k` for `k = 0, 1, …` with `t0 + step * k ≤ end - dur`
(for a positive step, as in the source where the step is 15 minutes). -/

def gridCount (t0 limit step : Int) : Nat :=
  if t0 ≤ limit then (limit - t0).toNat / step.toNat + 1 else 0

def gridPoints (t0 limit step : Int) : List Int :=
  (List.range (gridCount t0 limit step)).map fun (k : Nat) => t0 + step * (k : Int)

/-- The per-slot overlap test of lines 283 and 417:
`not (t_end <= s["start"] or t >= s["end"])`. -/
def overlapB (t tEnd : Int) (s : Slot) : Bool :=
  !(decide (tEnd ≤ s.start) || decide (t ≥ s.stop))

/-! ## Availability scan (`get_available_slots_for_day`, lines 404–427) -/

def crewAvailable (st : State) (b : String) (day slot_minutes step : Int) : List Cand :=
  let wh := lookupWH st b
  let w := combineWindow day wh.1 wh.2
  let existing := get_day_slots_for_brygada st b day
  (gridPoints w.1 (w.2 - slot_minutes) step).filterMap fun t =>
    if existing.any (overlapB t (t + slot_minutes)) then none
    else some ⟨b, t, t + slot_minutes⟩

/-- Key relation of `available.sort(key=lambda x: (x["start"], x["brygada"]))`. -/
def candLe (a b : Cand) : Prop :=
  a.start < b.start ∨ (a.start = b.start ∧ strLeB a.brygada b.brygada = true)

instance : DecidableRel candLe := fun a b => by unfold candLe; infer_instance

def get_available_slots_for_day (st : State) (day slot_minutes step : Int) : List Cand :=
  ((st.brygady.flatMap fun b => crewAvailable st b day slot_minutes step).insertionSort candLe)

/-! ## Immediate scheduling (`schedule_client_immediately`, lines 255–297) -/

/-- Candidates of one crew: working window ∩ preferred window (both
overnight-aware), scanned at the 15-minute step, keeping starts whose interval
overlaps no existing booking of that crew/day. -/
def sciCrewCandidates (st : State) (b : String) (day dur ps pe : Int) : List Cand :=
  let existing := get_day_slots_for_brygada st b day
  let wh := lookupWH st b
  let w := combineWindow day wh.1 wh.2
  let p := combineWindow day ps pe
  let s0 := max w.1 p.1
  let e0 := min w.2 p.2
  (gridPoints s0 (e0 - dur) SEARCH_STEP_MINUTES).filterMap fun t =>
    if existing.any (overlapB t (t + dur)) then none
    else some ⟨b, t, t + dur⟩

def sciCandidates (st : State) (day dur ps pe : Int) : List Cand :=
  st.brygady.flatMap fun b => sciCrewCandidates st b day dur ps pe

/-- Computes `sum(s["duration_min"] for d in schedules.get(b, {}).values() for s in d)`. -/
def totalBookedMinutes (st : State) (b : String) : Int :=
  (((alookup st.schedules b).getD []).map fun dv => ((dv.2.map Slot.duration_min).sum)).sum

/-- Key relation of line 292:
`candidates.sort(key=lambda x: (x[1], total booked minutes of x[0]))`. -/
def sciLe (st : State) (a b : Cand) : Prop :=
  a.start < b.start ∨
    (a.start = b.start ∧ totalBookedMinutes st a.brygada ≤ totalBookedMinutes st b.brygada)

instance (st : State) : DecidableRel (sciLe st) := fun a b => by unfold sciLe; infer_instance

def schedule_client_immediately (st : State) (client slot_type_name : String)
    (day ps pe : Int) : Bool × Option Slot × State :=
  match st.slot_types.find? (fun s => decide (s.name = slot_type_name)) with
  | none => (false, none, st)
  | some ty =>
    let cands := sciCandidates st day ty.minutes ps pe
    if cands.isEmpty then (false, none, st)
    else
      match cands.insertionSort (sciLe st) with
      | [] => (false, none, st)
      | c :: _ =>
        let slot : Slot :=
          { start := c.start, stop := c.stop, slot_type := slot_type_name,
            duration_min := ty.minutes, client := client, pref_range := none }
        (true, some slot, add_slot_to_brygada st c.brygada day slot)

/-! ## Booking a selected candidate (the "Rezerwuj" handler, lines 429–462)

On every Streamlit rerun — in particular the rerun triggered by the click that
commits a candidate — `available_slots` is recomputed from the live store
(line 429) before any button handler fires, and a button exists only for
candidates in that fresh list. Hence the commit of a previously enumerated
candidate runs exactly when the candidate is in the re-enumerated list;
otherwise nothing is inserted (the stale button is simply not rendered, the
model reports this as `.slotNoLongerAvailable`). -/

inductive BookResult
  | booked
  | slotNoLongerAvailable
deriving DecidableEq

def book_candidate (st : State) (day : Int) (slot_type_name : String) (minutes : Int)
    (client : String) (c : Cand) : BookResult × State :=
  if c ∈ get_available_slots_for_day st day minutes SEARCH_STEP_MINUTES then
    let slot : Slot :=
      { start := c.start, stop := c.stop, slot_type := slot_type_name,
        duration_min := minutes, client := client, pref_range := none }
    (.booked,
      { add_slot_to_brygada st c.brygada day slot with
        client_counter := st.client_counter + 1 })
  else (.slotNoLongerAvailable, st)

/-! ## Slot-type parsing (`parse_slot_types`, lines 187–205)

The text is modelled as its list of lines (`str.splitlines`). Python `int()`
and `float()` are applied to fields already stripped by `str.strip()`, so the
models `pyInt?` / `pyFloat?` take stripped fields: no leading or trailing
whitespace remains, and any interior whitespace character simply fails the
numeric grammar, exactly as in CPython (where
`_PyUnicode_TransformDecimalAndSpaceToASCII` turns it into a space or `?`
that the C-level parse then rejects). Both accept every Unicode decimal
digit (category `Nd`: the 10-codepoint blocks listed in `ndBases`, CPython's
`unicodedata` table) and PEP-515 underscores (each underscore flanked by
digits); `float()` additionally accepts a fraction part, an exponent part
and the case-insensitive specials `inf`/`infinity`/`nan`. Finite float
values are exact rationals (this development's model of Python floats),
except that the sign-relevant IEEE-754 double boundary behavior is kept:
magnitudes at most `2^-1075` underflow to a signed zero (so they do not
compare `< 0`) and magnitudes at least `2^1024 - 2^970` round to a signed
infinity — hence a field is accepted or rejected, and its weight classified
negative or not, exactly as in CPython. A parse failure anywhere in a line,
like a failed validation, aborts only that line (`except` → warning → skip). -/

def uniWs : List Nat :=
  [9, 10, 11, 12, 13, 28, 29, 30, 31, 32, 133, 160, 5760,
   8192, 8193, 8194, 8195, 8196, 8197, 8198, 8199, 8200, 8201, 8202,
   8232, 8233, 8239, 8287, 12288]

/-- The whitespace set of Python `str.strip()` / `str.isspace` (codepoints in
`uniWs`). -/
def wsChar (c : Char) : Bool := uniWs.contains c.toNat

/-- Computes `s.strip()` on the character list. -/
def trimChars (l : List Char) : List Char :=
  ((l.dropWhile wsChar).reverse.dropWhile wsChar).reverse

def splitCommaAux (cur : List Char) : List Char → List (List Char)
  | [] => [cur.reverse]
  | c :: t => if c = ',' then cur.reverse :: splitCommaAux [] t else splitCommaAux (c :: cur) t

def splitComma (l : List Char) : List (List Char) := splitCommaAux [] l

/-- Start codepoints of the 10-codepoint Unicode `Nd` decimal-digit blocks
(CPython's `unicodedata` table: the digits `int()` and `float()` accept,
each block holding the digits 0–9 in order). -/
def ndBases : List Nat :=
  [48, 1632, 1776, 1984, 2406, 2534, 2662, 2790, 2918, 3046, 3174, 3302,
   3430, 3558, 3664, 3792, 3872, 4160, 4240, 6112, 6160, 6470, 6608, 6784,
   6800, 6992, 7088, 7232, 7248, 42528, 43216, 43264, 43472, 43504, 43600,
   44016, 65296, 66720, 68912, 69734, 69872, 69942, 70096, 70384, 70736,
   70864, 71248, 71360, 71472, 71904, 72016, 72784, 73040, 73120, 92768,
   92864, 93008, 120782, 120792, 120802, 120812, 120822, 123200, 123632,
   125264, 130032]

/-- Decimal value of a Unicode decimal digit (category `Nd`), else `none`. -/
def decDigit? (c : Char) : Option Nat :=
  ndBases.findSome? fun b =>
    if b ≤ c.toNat && c.toNat ≤ b + 9 then some (c.toNat - b) else none

def isDigitChar (c : Char) : Bool := (decDigit? c).isSome

def digitsVal : List Char → Nat → Nat
  | [], acc => acc
  | c :: t, acc => digitsVal t (acc * 10 + (decDigit? c).getD 0)

/-- All-digit nonempty string to its value. -/
def digitsVal? (l : List Char) : Option Nat :=
  if l = [] then none
  else if l.all isDigitChar then some (digitsVal l 0) else none

/-- PEP 515 check, `prev` being the preceding character: every underscore
must have a decimal digit immediately before and immediately after it. -/
def underscoresOKFrom (prev : Char) : List Char → Bool
  | [] => true
  | c :: t =>
    if c = '_' then
      (isDigitChar prev && (match t with | d :: _ => isDigitChar d | [] => false)) &&
        underscoresOKFrom c t
    else underscoresOKFrom c t

/-- PEP 515 check for a whole field (a leading underscore is never legal). -/
def underscoresOK : List Char → Bool
  | [] => true
  | c :: t => if c = '_' then false else underscoresOKFrom c t

def dropUnderscores (l : List Char) : List Char := l.filter fun c => c ≠ '_'

/-- Python `int(s)` on an already-stripped field: optional sign, then decimal
digits (any Unicode `Nd`) with PEP-515 underscores. -/
def pyInt? (l : List Char) : Option Int :=
  if underscoresOK l then
    match dropUnderscores l with
    | '-' :: r => (digitsVal? r).map fun n => -(n : Int)
    | '+' :: r => (digitsVal? r).map fun n => (n : Int)
    | l' => (digitsVal? l').map fun n => (n : Int)
  else none

/-- Result of Python `float()`: a finite value (an exact rational in this
development's model of Python floats) or one of the IEEE specials the string
parser can produce. -/
inductive PFloat where
  | finite (q : ℚ)
  | inf
  | ninf
  | nan
deriving DecidableEq

/-- The float comparison `x < 0` (false on `nan`, on `inf` and on the
zeros, true on `-inf` and on negative finite values). -/
def pfLt0 : PFloat → Bool
  | .finite q => decide (q < 0)
  | .inf => false
  | .ninf => true
  | .nan => false

/-- Unsigned magnitude of a `float()` field body before sign application and
double rounding: finite `num / den`, or a parsed special. -/
inductive UMag where
  | fin (num den : Nat)
  | inf
  | nan
deriving DecidableEq

def splitOnExpAux (acc : List Char) : List Char → List Char × Option (List Char)
  | [] => (acc.reverse, none)
  | c :: t =>
    if c = 'e' ∨ c = 'E' then (acc.reverse, some t) else splitOnExpAux (c :: acc) t

/-- Splits a float body at its first exponent marker `e`/`E`, if any. -/
def splitOnExp (l : List Char) : List Char × Option (List Char) := splitOnExpAux [] l

def splitDotAux (cur : List Char) : List Char → List (List Char)
  | [] => [cur.reverse]
  | c :: t => if c = '.' then cur.reverse :: splitDotAux [] t else splitDotAux (c :: cur) t

def splitDot (l : List Char) : List (List Char) := splitDotAux [] l

/-- Mantissa `digits`, `digits.digits`, `digits.` or `.digits`, returned as
(numerator, number of fraction digits). -/
def mantissa? (l : List Char) : Option (Nat × Nat) :=
  match splitDot l with
  | [ds] => (digitsVal? ds).map fun n => (n, 0)
  | [as, bs] =>
    if (as.all isDigitChar && bs.all isDigitChar) && (!as.isEmpty || !bs.isEmpty) then
      some (digitsVal as 0 * 10 ^ bs.length + digitsVal bs 0, bs.length)
    else none
  | _ => none

/-- Exponent part: optional sign, then digits. -/
def expVal? (l : List Char) : Option Int :=
  match l with
  | '-' :: r => (digitsVal? r).map fun n => -(n : Int)
  | '+' :: r => (digitsVal? r).map fun n => (n : Int)
  | _ => (digitsVal? l).map fun n => (n : Int)

/-- Scales the mantissa `n / 10 ^ f` by `10 ^ e`. -/
def scaleExp (n f : Nat) (e : Int) : UMag :=
  if (f : Int) ≤ e then .fin (n * 10 ^ (e - (f : Int)).toNat) 1
  else .fin n (10 ^ ((f : Int) - e).toNat)

/-- ASCII-case-insensitive comparison with a keyword (the specials are pure
ASCII; any non-ASCII letter would have failed the CPython transform). -/
def lowerIs (l : List Char) (s : String) : Bool := l.map Char.toLower == s.data

/-- The unsigned body of a `float()` field: a special, or a mantissa with an
optional exponent. -/
def pyFloatUMag? (l : List Char) : Option UMag :=
  if lowerIs l "inf" || lowerIs l "infinity" then some .inf
  else if lowerIs l "nan" then some .nan
  else
    match splitOnExp l with
    | (m, none) => (mantissa? m).map fun p => UMag.fin p.1 (10 ^ p.2)
    | (m, some es) =>
      match mantissa? m, expVal? es with
      | some p, some e => some (scaleExp p.1 p.2 e)
      | _, _ => none

def p64 : Nat := 2 ^ 64

/-- At or below this magnitude an IEEE double literal underflows to a signed
zero (ties-to-even sends the halfway point `2^-1075` to zero). The
denominator is `2^1075`, written `(2^64)^16 * 2^51` so it evaluates with
small exponents; `underflowBound_eq` states the equality. -/
def underflowBound : ℚ := mkRat 1 (p64 ^ 16 * 2 ^ 51)

/-- At or above this magnitude an IEEE double literal rounds to infinity
(the halfway point `2^1024 - 2^970` above the largest finite double ties to
the even neighbor, infinity); written with small exponents as for
`underflowBound`, see `overflowBound_eq`. -/
def overflowBound : ℚ := mkRat ((p64 : Int) ^ 16 - (p64 : Int) ^ 15 * 2 ^ 10) 1

/-- Applies the sign and the double boundary behavior to a parsed magnitude;
in between the boundaries the value is the exact rational. -/
def signRound (neg : Bool) : UMag → PFloat
  | .fin n d =>
    if mkRat (n : Int) d ≤ underflowBound then .finite 0
    else if overflowBound ≤ mkRat (n : Int) d then (if neg then .ninf else .inf)
    else .finite (if neg then mkRat (-(n : Int)) d else mkRat (n : Int) d)
  | .inf => if neg then .ninf else .inf
  | .nan => .nan

/-- Python `float(s)` on an already-stripped field. -/
def pyFloat? (l : List Char) : Option PFloat :=
  if underscoresOK l then
    match dropUnderscores l with
    | '-' :: r => (pyFloatUMag? r).map (signRound true)
    | '+' :: r => (pyFloatUMag? r).map (signRound false)
    | l' => (pyFloatUMag? l').map (signRound false)
  else none

/-- Computes `[p.strip() for p in raw.split(",") if p.strip()]`. -/
def lineParts (raw : List Char) : List String :=
  ((splitComma raw).map trimChars).filterMap fun cs =>
    if cs = [] then none else some (String.mk cs)

/-- An entry of the `parse_slot_types` output. Unlike the finite-weight view
`SlotTypeR` used by the rest of the embedding, a parsed weight can be an
IEEE special: `float("inf")` and `float("nan")` pass the `weight < 0`
validation and are appended as-is. -/
structure SlotTypeP where
  name : String
  minutes : Int
  weight : PFloat
deriving DecidableEq

/-- One iteration of the `parse_slot_types` loop body on a non-blank line:
`name = parts[0]` (IndexError on no parts → skip), `minutes = int(parts[1])`
if present else `None`, `weight = float(parts[2])` if present else `1.0`;
any exception, `minutes is None or minutes <= 0`, or `weight < 0` skips the
line. -/
def parseSlotLine (parts : List String) : Option SlotTypeP :=
  match parts with
  | [] => none
  | name :: rest =>
    match rest with
    | [] => none
    | m :: rest2 =>
      match pyInt? m.data with
      | none => none
      | some minutes =>
        match (match rest2 with
               | [] => some (PFloat.finite 1)
               | w :: _ => pyFloat? w.data) with
        | none => none
        | some weight =>
          if minutes ≤ 0 then none
          else if pfLt0 weight then none
          else some ⟨name, minutes, weight⟩

def lineResult (line : String) : Option SlotTypeP :=
  let raw := trimChars line.data
  if raw = [] then none else parseSlotLine (lineParts raw)

def parse_slot_types (lines : List String) : List SlotTypeP :=
  lines.filterMap lineResult

/-! ## Weighted random pick (`weighted_choice`, lines 208–213)

`random.choices(names, weights=weights, k=1)[0]` with the random draw
`r ∈ [0,1)` passed explicitly. CPython computes the cumulative weights,
raises `ValueError` when their total is ≤ 0 (`.wcError`), and otherwise
returns `names[bisect_right(cum_weights, r * total, 0, len(names) - 1)]`;
on the nondecreasing cumulative list, `bisect_right` bounded by `hi`
is the count of entries `≤ x` among the first `hi`. -/

inductive WCResult
  | nil
  | pick (name : String)
  | wcError
deriving DecidableEq

def cumFrom (acc : ℚ) : List ℚ → List ℚ
  | [] => []
  | w :: t => qadd acc w :: cumFrom (qadd acc w) t

/-- Computes `itertools.accumulate(weights)`. -/
def cumWeights : List ℚ → List ℚ
  | [] => []
  | w :: t => w :: cumFrom w t

def weighted_choice (slot_types : List SlotTypeR) (r : ℚ) : WCResult :=
  match slot_types with
  | [] => .nil
  | _ =>
    let names := slot_types.map SlotTypeR.name
    let weights := slot_types.map SlotTypeR.weight
    let cum := cumWeights weights
    let total := cum.getLastD 0
    if total ≤ 0 then .wcError
    else
      let x := qmul r total
      let hi := slot_types.length - 1
      let i := (cum.take hi).countP fun c => decide (c ≤ x)
      .pick (names.getD i "")

/-! ## Auto-fill (the "Wypełnij cały dzień do 100%" handler, lines 475–526)

The two random draws of each loop body (`weighted_choice(...)` and
`random.choice(list(PREFERRED_SLOTS.keys()))`) are supplied by streams indexed
by an attempt counter. A `ValueError` from `random.choices` (total weight ≤ 0)
or a `KeyError` from `working_hours[b]` aborts the whole handler with the
mutations made so far kept (`crashed = true`). -/

def PREFERRED_SLOTS : List (String × Int × Int) :=
  [("8:00-11:00", 480, 660), ("11:00-14:00", 660, 840),
   ("14:00-17:00", 840, 1020), ("17:00-20:00", 1020, 1200)]

structure AFRand where
  wcR : Nat → ℚ
  prefIdx : Nat → Nat

structure AFOut where
  st : State
  ctr : Nat
  added : Bool
  crashed : Bool
deriving DecidableEq

/-- Body of `for b in st.session_state.brygady:` inside the auto-fill loop.
(`auto_type = weighted_choice(...) or "Standard"` raises `ValueError` out of the
handler when the weight total is ≤ 0; otherwise `None` falls back to
`"Standard"`.) -/
def afCrewStep (rand : AFRand) (day : Int) (st : State) (ctr : Nat) (b : String) : AFOut :=
  match alookup st.working_hours b with
  | none => ⟨st, ctr, false, true⟩
  | some wh =>
    let daily := wh_minutes wh.1 wh.2
    let st1 : State :=
      { st with schedules := schedSet st.schedules b day (schedGet st.schedules b day) }
    let used := ((schedGet st1.schedules b day).map Slot.duration_min).sum
    if daily ≤ used then ⟨st1, ctr, false, false⟩
    else if weighted_choice st1.slot_types (rand.wcR ctr) = .wcError then ⟨st1, ctr, false, true⟩
    else
      let auto_type :=
        match weighted_choice st1.slot_types (rand.wcR ctr) with
        | .pick s => s
        | _ => "Standard"
      let pr := PREFERRED_SLOTS.getD (rand.prefIdx ctr % PREFERRED_SLOTS.length)
        ("8:00-11:00", 480, 660)
      let client := "AutoKlient " ++ toString st1.client_counter
      let r := schedule_client_immediately st1 client auto_type day pr.2.1 pr.2.2
      let st2 := r.2.2
      if r.1 then
        let infoStart := match r.2.1 with | some sl => sl.start | none => 0
        let tagged := (schedGet st2.schedules b day).map fun s =>
          if s.client = client ∧ s.start = infoStart
          then { s with pref_range := some pr.1 } else s
        let st3 : State := { st2 with schedules := schedSet st2.schedules b day tagged }
        ⟨{ st3 with client_counter := st3.client_counter + 1 }, ctr + 1, true, false⟩
      else ⟨st2, ctr + 1, false, false⟩

/-- One round: a full pass over the crew list (flag accumulates "any booking
added this round"). -/
def afRound (rand : AFRand) (day : Int) : State → Nat → List String → AFOut
  | st, ctr, [] => ⟨st, ctr, false, false⟩
  | st, ctr, b :: bs =>
    let o := afCrewStep rand day st ctr b
    if o.crashed then ⟨o.st, o.ctr, o.added, true⟩
    else
      let o2 := afRound rand day o.st o.ctr bs
      ⟨o2.st, o2.ctr, o.added || o2.added, o2.crashed⟩

def max_iterations : Nat := 5000

/-- The loop `while iteration < max_iterations and slots_added_in_last_iteration:`;
returns the final state and the per-round added-flags, newest round last. -/
def afLoop (rand : AFRand) (day : Int) : Nat → State → Nat → State × List Bool
  | 0, st, _ => (st, [])
  | fuel + 1, st, ctr =>
    let o := afRound rand day st ctr st.brygady
    if o.crashed then (o.st, [o.added])
    else if o.added then
      let r := afLoop rand day fuel o.st o.ctr
      (r.1, o.added :: r.2)
    else (o.st, [o.added])

def autofill (rand : AFRand) (day : Int) (st : State) : State × List Bool :=
  afLoop rand day max_iterations st 0

/-! ## Sequences of mutating operations (for the no-overlap invariant) -/

inductive Op
  | book (day : Int) (slot_type_name : String) (minutes : Int) (client : String) (c : Cand)
  | schedImm (client slot_type_name : String) (day ps pe : Int)
  | auto (rand : AFRand) (day : Int)
  | del (b : String) (day : Int) (startMatch : Int)

def applyOp (st : State) : Op → State
  | .book day tn m cl c => (book_candidate st day tn m cl c).2
  | .schedImm cl tn day ps pe => (schedule_client_immediately st cl tn day ps pe).2.2
  | .auto rand day => (autofill rand day st).1
  | .del b day sm => delete_slot st b day sm

def runOps (st : State) (ops : List Op) : State := ops.foldl applyOp st

/-- Two bookings do not overlap under half-open `[start, stop)` semantics. -/
def noOv (a b : Slot) : Prop := a.stop ≤ b.start ∨ b.stop ≤ a.start

def DayNoOverlap (l : List Slot) : Prop := l.Pairwise noOv

/-- The committed store never holds two overlapping bookings for one crew/day. -/
def NoOverlapState (st : State) : Prop := ∀ b d, DayNoOverlap (schedGet st.schedules b d)


/-! ## Arrival window (Booking Transaction, spec §4.6) -/

/-- Modelled from the spec: the Booking Transaction's arrival-window
computation. The buffer-based arrival window is absent from
`src/sloty_gantt_5_4.py` — its booking handler stores no buffers and no
arrival window (bookings carry only `pref_range`) — so this follows the
spec's words: the window `[start − bufferBefore, start + bufferAfter]` is
shifted forward so its start equals the working-hours start when it starts
earlier, then shifted backward so its end equals the working-hours end when
it ends later (window length `bufferBefore + bufferAfter` preserved). -/
def arrivalWindow (whStart whEnd start bufferBefore bufferAfter : Int) : Int × Int :=
  let lo := start - bufferBefore
  let hi := start + bufferAfter
  let p :=
    if lo < whStart then (whStart, whStart + (bufferBefore + bufferAfter)) else (lo, hi)
  if whEnd < p.2 then (whEnd - (bufferBefore + bufferAfter), whEnd) else p

/-! ## Concrete session states used as witnesses -/

/-- Fresh default-like state: one slot type, two crews, empty store. -/
def state0 : State :=
  { slot_types := [⟨"Standard", 60, 1⟩], brygady := ["Brygada 1", "Brygada 2"],
    working_hours := [("Brygada 1", 480, 960), ("Brygada 2", 480, 960)],
    schedules := [], client_counter := 1 }

/-- An 08:00–09:00 booking of client "K1". -/
def slotK1 : Slot :=
  { start := 480, stop := 540, slot_type := "Standard", duration_min := 60,
    client := "K1", pref_range := none }

/-- One crew 08:00–10:00 with an 08:00–09:00 booking. -/
def state2 : State :=
  { slot_types := [⟨"Standard", 60, 1⟩], brygady := ["A"],
    working_hours := [("A", 480, 600)],
    schedules := [("A", [(0, [slotK1])])], client_counter := 2 }

/-- One crew 08:00–10:00, empty store (booking-handler witness). -/
def state3 : State :=
  { slot_types := [⟨"Standard", 60, 1⟩], brygady := ["A"],
    working_hours := [("A", 480, 600)], schedules := [], client_counter := 1 }

/-- One crew 08:00–10:00, empty store (immediate-scheduling witness). -/
def state10 : State :=
  { slot_types := [⟨"Standard", 60, 1⟩], brygady := ["A"],
    working_hours := [("A", 480, 600)], schedules := [], client_counter := 1 }

def slot10 : Slot :=
  { start := 480, stop := 540, slot_type := "Standard", duration_min := 60,
    client := "C1", pref_range := none }

/-- A stored booking whose `duration_min` (480) does not match its actual
zero-length interval — loadable from `schedules.json`, which is read back
without validation. -/
def fakeFullSlot : Slot :=
  { start := 480, stop := 480, slot_type := "Standard", duration_min := 480,
    client := "ghost", pref_range := none }

/-- Crew "B" is "full" by accumulated `duration_min` (480 ≥ 480) while its
08:00–16:00 working window is actually free; crew "A" works 09:00–16:00. -/
def stateCex9 : State :=
  { slot_types := [⟨"Standard", 60, 1⟩], brygady := ["A", "B"],
    working_hours := [("A", 540, 960), ("B", 480, 960)],
    schedules := [("B", [(0, [fakeFullSlot])])], client_counter := 1 }

/-- Deterministic random streams: weighted draw 0, preferred range index 0. -/
def randCex9 : AFRand := ⟨fun _ => 0, fun _ => 0⟩

/-! ## Lemmas: the rational helpers are exactly the field operations -/

theorem qadd_eq (a b : ℚ) : qadd a b = a + b := (Rat.add_def' a b).symm

theorem qmul_eq (a b : ℚ) : qmul a b = a * b := (Rat.mul_eq_mkRat a b).symm

/-! ## Lemmas: association lists and the store -/

theorem alookup_aupdate_self {κ α : Type} [DecidableEq κ] (l : List (κ × α)) (k : κ) (v : α) :
    alookup (aupdate l k v) k = some v := by
  induction l with
  | nil => simp [aupdate, alookup]
  | cons hd t ih =>
    obtain ⟨k', v'⟩ := hd
    by_cases hk : k' = k
    · subst hk
      simp [aupdate, alookup]
    · simp [aupdate, alookup, hk, ih]

theorem alookup_aupdate_ne {κ α : Type} [DecidableEq κ] (l : List (κ × α)) (k k' : κ) (v : α)
    (h : k' ≠ k) : alookup (aupdate l k v) k' = alookup l k' := by
  induction l with
  | nil => simp [aupdate, alookup, Ne.symm h]
  | cons hd t ih =>
    obtain ⟨k'', v''⟩ := hd
    by_cases hk : k'' = k
    · subst hk
      simp [aupdate, alookup, Ne.symm h]
    · simp [aupdate, alookup, hk, ih]

theorem schedGet_schedSet (sched : List (String × List (Int × List Slot))) (b : String)
    (d : Int) (l : List Slot) (b' : String) (d' : Int) :
    schedGet (schedSet sched b d l) b' d' =
      if b' = b ∧ d' = d then l else schedGet sched b' d' := by
  by_cases hb : b' = b
  · subst hb
    by_cases hd : d' = d
    · subst hd
      simp [schedGet, schedSet, alookup_aupdate_self]
    · simp [schedGet, schedSet, alookup_aupdate_self, alookup_aupdate_ne _ _ _ _ hd, hd]
  · simp [schedGet, schedSet, alookup_aupdate_ne _ _ _ _ hb, hb]

/-! ## Lemmas: the step scan and the overlap test -/

theorem mem_gridPoints {t0 limit step t : Int} (hstep : 0 < step) :
    t ∈ gridPoints t0 limit step ↔ ∃ k : Nat, t = t0 + step * k ∧ t ≤ limit := by
  have hstepN : 0 < step.toNat := by omega
  unfold gridPoints
  rw [List.mem_map]
  constructor
  · rintro ⟨k, hk, hf⟩
    rw [List.mem_range] at hk
    refine ⟨k, hf.symm, ?_⟩
    unfold gridCount at hk
    by_cases h : t0 ≤ limit
    · rw [if_pos h] at hk
      have hk2 : k * step.toNat ≤ (limit - t0).toNat :=
        (Nat.le_div_iff_mul_le hstepN).mp (Nat.lt_succ_iff.mp hk)
      have hcast : (k : Int) * step ≤ limit - t0 := by
        have h1 : ((k * step.toNat : Nat) : Int) ≤ ((limit - t0).toNat : Int) :=
          Int.ofNat_le.mpr hk2
        rw [Int.toNat_of_nonneg (by omega : (0:Int) ≤ limit - t0)] at h1
        push_cast at h1
        rwa [Int.toNat_of_nonneg (by omega : (0:Int) ≤ step)] at h1
      rw [← hf]
      rw [mul_comm] at hcast
      linarith
    · rw [if_neg h] at hk
      exact absurd hk (by omega)
  · rintro ⟨k, rfl, hle⟩
    have hk0 : (0:Int) ≤ step * (k:Int) := mul_nonneg hstep.le (Int.natCast_nonneg k)
    have h : t0 ≤ limit := by linarith
    refine ⟨k, List.mem_range.mpr ?_, rfl⟩
    unfold gridCount
    rw [if_pos h]
    have hcast : (k:Int) * step ≤ limit - t0 := by
      rw [mul_comm]
      linarith
    have hk2 : k * step.toNat ≤ (limit - t0).toNat := by
      have h1 : ((k * step.toNat : Nat) : Int) ≤ ((limit - t0).toNat : Int) := by
        push_cast
        rw [Int.toNat_of_nonneg (by omega : (0:Int) ≤ step),
          Int.toNat_of_nonneg (by omega : (0:Int) ≤ limit - t0)]
        exact hcast
      exact_mod_cast h1
    exact Nat.lt_succ_of_le ((Nat.le_div_iff_mul_le hstepN).mpr hk2)

theorem overlapB_false {t tEnd : Int} {s : Slot} :
    overlapB t tEnd s = false ↔ tEnd ≤ s.start ∨ s.stop ≤ t := by
  simp only [overlapB, Bool.not_eq_false', Bool.or_eq_true, decide_eq_true_eq, ge_iff_le]

theorem any_overlapB_eq_false {t tEnd : Int} {l : List Slot} :
    l.any (overlapB t tEnd) = false ↔ ∀ s ∈ l, tEnd ≤ s.start ∨ s.stop ≤ t := by
  rw [List.any_eq_false]
  constructor
  · intro h s hs
    have := h s hs
    rw [Bool.not_eq_true] at this
    exact overlapB_false.mp this
  · intro h s hs
    rw [Bool.not_eq_true]
    exact overlapB_false.mpr (h s hs)

/-! ## Lemmas: membership in the candidate scans -/

theorem mem_get_day_slots {st : State} {b : String} {day : Int} {s : Slot} :
    s ∈ get_day_slots_for_brygada st b day ↔ s ∈ schedGet st.schedules b day :=
  List.mem_insertionSort _

theorem noOv_symm {a b : Slot} (h : noOv a b) : noOv b a := Or.symm h

theorem dayNoOverlap_of_perm {l₁ l₂ : List Slot} (hp : l₁.Perm l₂) (h : DayNoOverlap l₁) :
    DayNoOverlap l₂ := (hp.pairwise_iff fun hab => noOv_symm hab).mp h

theorem mem_crewAvailable {st : State} {b : String} {day m step : Int} {c : Cand}
    (hstep : 0 < step) :
    c ∈ crewAvailable st b day m step ↔
      ∃ k : Nat,
        c.brygada = b ∧
        c.start = (combineWindow day (lookupWH st b).1 (lookupWH st b).2).1 + step * k ∧
        c.stop = c.start + m ∧
        c.start + m ≤ (combineWindow day (lookupWH st b).1 (lookupWH st b).2).2 ∧
        ∀ s ∈ schedGet st.schedules b day, c.start + m ≤ s.start ∨ s.stop ≤ c.start := by
  unfold crewAvailable
  simp only [List.mem_filterMap]
  constructor
  · rintro ⟨t, ht, hf⟩
    by_cases hb : (get_day_slots_for_brygada st b day).any (overlapB t (t + m)) = true
    · rw [if_pos hb] at hf
      exact absurd hf (by simp)
    · rw [Bool.not_eq_true] at hb
      rw [if_neg (by simp [hb])] at hf
      rcases (mem_gridPoints hstep).mp ht with ⟨k, rfl, hlim⟩
      rw [Option.some.injEq] at hf
      subst hf
      refine ⟨k, rfl, rfl, rfl, by dsimp only; omega, ?_⟩
      dsimp only
      intro s hs
      exact (any_overlapB_eq_false.mp hb) s (mem_get_day_slots.mpr hs)
  · rintro ⟨k, hbry, hstart, hstop, hlim, hfree⟩
    refine ⟨c.start, ?_, ?_⟩
    · exact (mem_gridPoints hstep).mpr ⟨k, hstart, by omega⟩
    · have hb : (get_day_slots_for_brygada st b day).any (overlapB c.start (c.start + m)) = false := by
        rw [any_overlapB_eq_false]
        intro s hs
        exact hfree s (mem_get_day_slots.mp hs)
      rw [if_neg (by simp [hb])]
      obtain ⟨cb, cs, ce⟩ := c
      simp_all

theorem mem_sciCrewCandidates {st : State} {b : String} {day dur ps pe : Int} {c : Cand} :
    c ∈ sciCrewCandidates st b day dur ps pe ↔
      ∃ k : Nat,
        c.brygada = b ∧
        c.start =
          max (combineWindow day (lookupWH st b).1 (lookupWH st b).2).1
            (combineWindow day ps pe).1 + SEARCH_STEP_MINUTES * k ∧
        c.stop = c.start + dur ∧
        c.start + dur ≤
          min (combineWindow day (lookupWH st b).1 (lookupWH st b).2).2
            (combineWindow day ps pe).2 ∧
        ∀ s ∈ schedGet st.schedules b day, c.start + dur ≤ s.start ∨ s.stop ≤ c.start := by
  unfold sciCrewCandidates
  simp only [List.mem_filterMap]
  have hstep : (0:Int) < SEARCH_STEP_MINUTES := by decide
  constructor
  · rintro ⟨t, ht, hf⟩
    by_cases hb : (get_day_slots_for_brygada st b day).any (overlapB t (t + dur)) = true
    · rw [if_pos hb] at hf
      exact absurd hf (by simp)
    · rw [Bool.not_eq_true] at hb
      rw [if_neg (by simp [hb])] at hf
      rcases (mem_gridPoints hstep).mp ht with ⟨k, rfl, hlim⟩
      rw [Option.some.injEq] at hf
      subst hf
      refine ⟨k, rfl, rfl, rfl, by dsimp only; omega, ?_⟩
      dsimp only
      intro s hs
      exact (any_overlapB_eq_false.mp hb) s (mem_get_day_slots.mpr hs)
  · rintro ⟨k, hbry, hstart, hstop, hlim, hfree⟩
    refine ⟨c.start, ?_, ?_⟩
    · exact (mem_gridPoints hstep).mpr ⟨k, hstart, by omega⟩
    · have hb : (get_day_slots_for_brygada st b day).any (overlapB c.start (c.start + dur)) = false := by
        rw [any_overlapB_eq_false]
        intro s hs
        exact hfree s (mem_get_day_slots.mp hs)
      rw [if_neg (by simp [hb])]
      obtain ⟨cb, cs, ce⟩ := c
      simp_all

theorem mem_available {st : State} {day m step : Int} {c : Cand} :
    c ∈ get_available_slots_for_day st day m step ↔
      ∃ b ∈ st.brygady, c ∈ crewAvailable st b day m step := by
  unfold get_available_slots_for_day
  rw [List.mem_insertionSort]
  simp [List.mem_flatMap]

theorem mem_sciCandidates {st : State} {day dur ps pe : Int} {c : Cand} :
    c ∈ sciCandidates st day dur ps pe ↔
      ∃ b ∈ st.brygady, c ∈ sciCrewCandidates st b day dur ps pe := by
  unfold sciCandidates
  simp [List.mem_flatMap]

/-! ## Lemmas: preservation of the no-overlap invariant -/

theorem dayNoOverlap_append {l : List Slot} {slot : Slot} (h : DayNoOverlap l)
    (hfree : ∀ s ∈ l, noOv slot s) : DayNoOverlap (l ++ [slot]) := by
  unfold DayNoOverlap at *
  rw [List.pairwise_append]
  refine ⟨h, List.pairwise_singleton _ _, ?_⟩
  intro a ha s hs
  rw [List.mem_singleton] at hs
  subst hs
  exact noOv_symm (hfree a ha)

theorem sciCandidate_free {st : State} {day dur ps pe : Int} {c : Cand}
    (h : c ∈ sciCandidates st day dur ps pe) :
    c.stop = c.start + dur ∧
      ∀ s ∈ schedGet st.schedules c.brygada day, c.stop ≤ s.start ∨ s.stop ≤ c.start := by
  rcases mem_sciCandidates.mp h with ⟨b, hb, hc⟩
  rcases mem_sciCrewCandidates.mp hc with ⟨k, hbry, hstart, hstop, hlim, hfree⟩
  subst hbry
  refine ⟨hstop, fun s hs => ?_⟩
  rw [hstop]
  exact hfree s hs

theorem availCandidate_free {st : State} {day m step : Int} {c : Cand} (hstep : 0 < step)
    (h : c ∈ get_available_slots_for_day st day m step) :
    c.stop = c.start + m ∧
      ∀ s ∈ schedGet st.schedules c.brygada day, c.stop ≤ s.start ∨ s.stop ≤ c.start := by
  rcases mem_available.mp h with ⟨b, hb, hc⟩
  rcases (mem_crewAvailable hstep).mp hc with ⟨k, hbry, hstart, hstop, hlim, hfree⟩
  subst hbry
  refine ⟨hstop, fun s hs => ?_⟩
  rw [hstop]
  exact hfree s hs

theorem addSlot_preserves {st : State} {b : String} {day : Int} {slot : Slot}
    (h : NoOverlapState st) (hfree : ∀ s ∈ schedGet st.schedules b day, noOv slot s) :
    NoOverlapState (add_slot_to_brygada st b day slot) := by
  intro b' d'
  unfold add_slot_to_brygada
  dsimp only
  rw [schedGet_schedSet]
  split
  · exact dayNoOverlap_of_perm (List.perm_insertionSort _ _).symm
      (dayNoOverlap_append (h b day) hfree)
  · exact h b' d'

theorem schedImm_preserves (st : State) (cl tn : String) (day ps pe : Int)
    (h : NoOverlapState st) :
    NoOverlapState (schedule_client_immediately st cl tn day ps pe).2.2 := by
  unfold schedule_client_immediately
  cases hfind : st.slot_types.find? (fun s => decide (s.name = tn)) with
  | none => exact h
  | some ty =>
    dsimp only
    by_cases hemp : (sciCandidates st day ty.minutes ps pe).isEmpty
    · rw [if_pos hemp]
      exact h
    · rw [if_neg hemp]
      cases hsort : (sciCandidates st day ty.minutes ps pe).insertionSort (sciLe st) with
      | nil => exact h
      | cons c rest =>
        dsimp only
        have hc : c ∈ sciCandidates st day ty.minutes ps pe := by
          have hmem : c ∈ (sciCandidates st day ty.minutes ps pe).insertionSort (sciLe st) := by
            rw [hsort]
            exact List.mem_cons_self _ _
          exact (List.mem_insertionSort _).mp hmem
        obtain ⟨hstop, hfree⟩ := sciCandidate_free hc
        apply addSlot_preserves h
        intro s hs
        have hf := hfree s hs
        unfold noOv
        dsimp only
        omega

theorem book_preserves (st : State) (day : Int) (tn : String) (m : Int) (cl : String)
    (c : Cand) (h : NoOverlapState st) : NoOverlapState (book_candidate st day tn m cl c).2 := by
  unfold book_candidate
  by_cases hmem : c ∈ get_available_slots_for_day st day m SEARCH_STEP_MINUTES
  · rw [if_pos hmem]
    dsimp only
    obtain ⟨hstop, hfree⟩ := availCandidate_free (by decide) hmem
    have hadd := @addSlot_preserves st c.brygada day
        { start := c.start, stop := c.stop, slot_type := tn, duration_min := m,
          client := cl, pref_range := none } h
      (fun s hs => by
        have hf := hfree s hs
        unfold noOv
        dsimp only
        omega)
    exact fun b' d' => hadd b' d'
  · rw [if_neg hmem]
    exact h

theorem delete_preserves (st : State) (b : String) (day sm : Int) (h : NoOverlapState st) :
    NoOverlapState (delete_slot st b day sm) := by
  intro b' d'
  unfold delete_slot
  dsimp only
  rw [schedGet_schedSet]
  split
  · exact List.Pairwise.sublist (List.filter_sublist _) (h b day)
  · exact h b' d'

theorem schedSet_self_preserves {st : State} {b : String} {day : Int} (h : NoOverlapState st) :
    NoOverlapState
      { st with schedules := schedSet st.schedules b day (schedGet st.schedules b day) } := by
  intro b' d'
  dsimp only
  rw [schedGet_schedSet]
  split
  · exact h b day
  · exact h b' d'

theorem tag_preserves {st : State} {b : String} {day : Int} {f : Slot → Slot}
    (hk : ∀ s, (f s).start = s.start ∧ (f s).stop = s.stop) (h : NoOverlapState st) :
    NoOverlapState
      { st with schedules := schedSet st.schedules b day ((schedGet st.schedules b day).map f) } := by
  intro b' d'
  dsimp only
  rw [schedGet_schedSet]
  split
  · refine List.Pairwise.map f ?_ (h b day)
    intro a a' ha
    unfold noOv at *
    rw [(hk a).1, (hk a).2, (hk a').1, (hk a').2]
    exact ha
  · exact h b' d'

theorem noOverlap_of_schedules_eq {st st' : State} (hs : st'.schedules = st.schedules)
    (h : NoOverlapState st) : NoOverlapState st' := by
  intro b d
  rw [hs]
  exact h b d

theorem afCrewStep_preserves (rand : AFRand) (day : Int) (st : State) (ctr : Nat) (b : String)
    (h : NoOverlapState st) : NoOverlapState (afCrewStep rand day st ctr b).st := by
  unfold afCrewStep
  cases hwh : alookup st.working_hours b with
  | none => exact h
  | some wh =>
    dsimp only
    have h1 := @schedSet_self_preserves st b day h
    split
    · exact h1
    · split
      · exact h1
      · have h2 := schedImm_preserves
          { st with schedules := schedSet st.schedules b day (schedGet st.schedules b day) }
          ("AutoKlient " ++ toString st.client_counter)
          (match weighted_choice st.slot_types (rand.wcR ctr) with
            | WCResult.pick s => s
            | _ => "Standard")
          day
          (PREFERRED_SLOTS.getD (rand.prefIdx ctr % PREFERRED_SLOTS.length)
            ("8:00-11:00", 480, 660)).2.1
          (PREFERRED_SLOTS.getD (rand.prefIdx ctr % PREFERRED_SLOTS.length)
            ("8:00-11:00", 480, 660)).2.2
          h1
        split
        · intro b' d'
          dsimp only
          rw [schedGet_schedSet]
          split
          · refine List.Pairwise.map _ ?_ (h2 b day)
            intro a a' ha
            split <;> split <;> exact ha
          · exact h2 b' d'
        · exact h2

theorem afRound_preserves (rand : AFRand) (day : Int) :
    ∀ (bs : List String) (st : State) (ctr : Nat), NoOverlapState st →
      NoOverlapState (afRound rand day st ctr bs).st := by
  intro bs
  induction bs with
  | nil => exact fun st ctr h => h
  | cons b bs ih =>
    intro st ctr h
    unfold afRound
    dsimp only
    split
    · exact afCrewStep_preserves rand day st ctr b h
    · exact ih _ _ (afCrewStep_preserves rand day st ctr b h)

theorem afLoop_preserves (rand : AFRand) (day : Int) :
    ∀ (fuel : Nat) (st : State) (ctr : Nat), NoOverlapState st →
      NoOverlapState (afLoop rand day fuel st ctr).1 := by
  intro fuel
  induction fuel with
  | zero => exact fun st ctr h => h
  | succ n ih =>
    intro st ctr h
    unfold afLoop
    dsimp only
    split
    · exact afRound_preserves rand day _ st ctr h
    · split
      · exact ih _ _ (afRound_preserves rand day _ st ctr h)
      · exact afRound_preserves rand day _ st ctr h

theorem autofill_preserves (rand : AFRand) (day : Int) (st : State) (h : NoOverlapState st) :
    NoOverlapState (autofill rand day st).1 :=
  afLoop_preserves rand day max_iterations st 0 h

theorem applyOp_preserves (st : State) (op : Op) (h : NoOverlapState st) :
    NoOverlapState (applyOp st op) := by
  cases op with
  | book day tn m cl c => exact book_preserves st day tn m cl c h
  | schedImm cl tn day ps pe => exact schedImm_preserves st cl tn day ps pe h
  | auto rand day => exact autofill_preserves rand day st h
  | del b day sm => exact delete_preserves st b day sm h

theorem runOps_preserves (ops : List Op) :
    ∀ st : State, NoOverlapState st → NoOverlapState (runOps st ops) := by
  induction ops with
  | nil => exact fun st h => h
  | cons op ops ih =>
    intro st h
    exact ih _ (applyOp_preserves st op h)

/-! ## Lemmas: the lexicographic string order -/

theorem charLeListB_total : ∀ xs ys : List Char, charLeListB xs ys = true ∨ charLeListB ys xs = true := by
  intro xs
  induction xs with
  | nil => intro ys; left; rfl
  | cons x xs ih =>
    intro ys
    cases ys with
    | nil => right; rfl
    | cons y ys =>
      unfold charLeListB
      by_cases h1 : x.toNat < y.toNat
      · left
        rw [if_pos h1]
      · by_cases h2 : y.toNat < x.toNat
        · right
          rw [if_pos h2]
        · rw [if_neg h1, if_neg h2, if_neg h2, if_neg h1]
          exact ih ys

theorem charLeListB_trans : ∀ xs ys zs : List Char, charLeListB xs ys = true →
    charLeListB ys zs = true → charLeListB xs zs = true := by
  intro xs
  induction xs with
  | nil => intro ys zs h1 h2; rfl
  | cons x xs ih =>
    intro ys zs h1 h2
    cases ys with
    | nil => simp [charLeListB] at h1
    | cons y ys =>
      cases zs with
      | nil => simp [charLeListB] at h2
      | cons z zs =>
        unfold charLeListB at h1 h2 ⊢
        by_cases hxy : x.toNat < y.toNat
        · by_cases hyz : y.toNat < z.toNat
          · rw [if_pos (show x.toNat < z.toNat by omega)]
          · by_cases hzy : z.toNat < y.toNat
            · rw [if_neg hyz, if_pos hzy] at h2
              simp at h2
            · rw [if_pos (show x.toNat < z.toNat by omega)]
        · by_cases hyx : y.toNat < x.toNat
          · rw [if_neg hxy, if_pos hyx] at h1
            simp at h1
          · rw [if_neg hxy, if_neg hyx] at h1
            by_cases hyz : y.toNat < z.toNat
            · rw [if_pos (show x.toNat < z.toNat by omega)]
            · by_cases hzy : z.toNat < y.toNat
              · rw [if_neg hyz, if_pos hzy] at h2
                simp at h2
              · rw [if_neg hyz, if_neg hzy] at h2
                rw [if_neg (show ¬ x.toNat < z.toNat by omega),
                  if_neg (show ¬ z.toNat < x.toNat by omega)]
                exact ih ys zs h1 h2

theorem strLeB_total (a b : String) : strLeB a b = true ∨ strLeB b a = true :=
  charLeListB_total _ _

theorem strLeB_trans {a b c : String} (h1 : strLeB a b = true) (h2 : strLeB b c = true) :
    strLeB a c = true := charLeListB_trans _ _ _ h1 h2

/-- The underflow bound is the IEEE halfway point below the smallest
positive subnormal double. -/
theorem underflowBound_eq : underflowBound = mkRat 1 (2 ^ 1075) := by
  have hd : p64 ^ 16 * 2 ^ 51 = 2 ^ 1075 := by
    rw [p64, ← pow_mul, ← pow_add]
  rw [underflowBound, hd]

/-- The overflow bound is the IEEE halfway point above the largest finite
double. -/
theorem overflowBound_eq : overflowBound = mkRat (2 ^ 1024 - 2 ^ 970) 1 := by
  have h1 : (p64 : Int) = 2 ^ 64 := by rw [p64]; push_cast
  have hn : (p64 : Int) ^ 16 - (p64 : Int) ^ 15 * 2 ^ 10 = 2 ^ 1024 - 2 ^ 970 := by
    rw [h1, ← pow_mul, ← pow_mul, ← pow_add]
  rw [overflowBound, hn]

theorem char_eq_of_toNat_eq {a b : Char} (h : a.toNat = b.toNat) : a = b :=
  Char.ext (UInt32.ext h)

theorem char_lt_iff_toNat_lt {a b : Char} : a < b ↔ a.toNat < b.toNat := by
  rw [Char.lt_iff_val_lt_val]
  exact Iff.rfl

theorem charLeListB_iff_not_lex :
    ∀ xs ys : List Char, charLeListB xs ys = true ↔ ¬ List.Lex (fun x y => x < y) ys xs := by
  intro xs
  induction xs with
  | nil =>
    intro ys
    cases ys with
    | nil =>
      constructor
      · intro _ h
        cases h
      · intro _
        rfl
    | cons y ys =>
      constructor
      · intro _ h
        cases h
      · intro _
        rfl
  | cons x xs ih =>
    intro ys
    cases ys with
    | nil =>
      constructor
      · intro hf
        simp [charLeListB] at hf
      · intro hn
        exact absurd List.Lex.nil hn
    | cons y ys =>
      unfold charLeListB
      by_cases h1 : x.toNat < y.toNat
      · rw [if_pos h1]
        constructor
        · intro _ h
          cases h with
          | rel hr =>
            rw [char_lt_iff_toNat_lt] at hr
            omega
          | cons htail => omega
        · intro _
          rfl
      · rw [if_neg h1]
        by_cases h2 : y.toNat < x.toNat
        · rw [if_pos h2]
          constructor
          · intro hf
            simp at hf
          · intro hn
            exact absurd (List.Lex.rel (char_lt_iff_toNat_lt.mpr h2)) hn
        · rw [if_neg h2]
          have hxy : x = y := char_eq_of_toNat_eq (by omega)
          subst hxy
          rw [ih ys]
          constructor
          · intro hn h
            cases h with
            | rel hr =>
              rw [char_lt_iff_toNat_lt] at hr
              omega
            | cons htail => exact hn htail
          · intro hn h
            exact hn (List.Lex.cons h)

/-- The embedded code-point-lexicographic comparison is exactly the order on
`String` (Python compares strings the same way). -/
theorem strLeB_eq_le (a b : String) : strLeB a b = true ↔ a ≤ b := by
  rw [strLeB, charLeListB_iff_not_lex]
  have h1 : List.Lex (fun x y => x < y) b.data a.data ↔ b < a :=
    Iff.symm String.lt_iff_toList_lt
  rw [h1]
  exact not_lt

instance : IsTotal Cand candLe :=
  ⟨fun a b => by
    unfold candLe
    rcases lt_trichotomy a.start b.start with h | h | h
    · exact Or.inl (Or.inl h)
    · rcases strLeB_total a.brygada b.brygada with hs | hs
      · exact Or.inl (Or.inr ⟨h, hs⟩)
      · exact Or.inr (Or.inr ⟨h.symm, hs⟩)
    · exact Or.inr (Or.inl h)⟩

instance : IsTrans Cand candLe :=
  ⟨fun a b c hab hbc => by
    unfold candLe at *
    rcases hab with h1 | ⟨h1, hs1⟩ <;> rcases hbc with h2 | ⟨h2, hs2⟩
    · exact Or.inl (by omega)
    · exact Or.inl (by omega)
    · exact Or.inl (by omega)
    · exact Or.inr ⟨h1.trans h2, strLeB_trans hs1 hs2⟩⟩

instance (st : State) : IsTotal Cand (sciLe st) :=
  ⟨fun a b => by unfold sciLe; omega⟩

instance (st : State) : IsTrans Cand (sciLe st) :=
  ⟨fun a b c => by unfold sciLe; omega⟩

/-! ## Lemmas: cumulative weights (`random.choices` internals) -/

theorem cumFrom_cons (acc w : ℚ) (t : List ℚ) :
    cumFrom acc (w :: t) = (acc + w) :: cumFrom (acc + w) t := by
  rw [cumFrom, qadd_eq]

theorem cumFrom_length (acc : ℚ) : ∀ ws : List ℚ, (cumFrom acc ws).length = ws.length := by
  intro ws
  induction ws generalizing acc with
  | nil => rfl
  | cons w t ih =>
    rw [cumFrom_cons]
    simp [ih]

theorem cumWeights_length (ws : List ℚ) : (cumWeights ws).length = ws.length := by
  cases ws with
  | nil => rfl
  | cons w t =>
    rw [cumWeights]
    simp [cumFrom_length]

theorem cumFrom_mem_le {acc : ℚ} {ws : List ℚ} (hw : ∀ w ∈ ws, 0 ≤ w) :
    ∀ v ∈ cumFrom acc ws, acc ≤ v := by
  induction ws generalizing acc with
  | nil => intro v hv; simp [cumFrom] at hv
  | cons w t ih =>
    intro v hv
    rw [cumFrom_cons] at hv
    rcases List.mem_cons.mp hv with rfl | hv
    · have := hw w (List.mem_cons_self _ _)
      linarith
    · have h1 := ih (fun u hu => hw u (List.mem_cons_of_mem _ hu)) v hv
      have := hw w (List.mem_cons_self _ _)
      linarith

theorem cumFrom_pairwise {acc : ℚ} {ws : List ℚ} (hw : ∀ w ∈ ws, 0 ≤ w) :
    (cumFrom acc ws).Pairwise (· ≤ ·) := by
  induction ws generalizing acc with
  | nil => exact List.Pairwise.nil
  | cons w t ih =>
    rw [cumFrom_cons]
    refine List.pairwise_cons.mpr ⟨?_, ih fun u hu => hw u (List.mem_cons_of_mem _ hu)⟩
    exact cumFrom_mem_le fun u hu => hw u (List.mem_cons_of_mem _ hu)

theorem cumWeights_pairwise {ws : List ℚ} (hw : ∀ w ∈ ws, 0 ≤ w) :
    (cumWeights ws).Pairwise (· ≤ ·) := by
  cases ws with
  | nil => exact List.Pairwise.nil
  | cons w t =>
    rw [cumWeights]
    refine List.pairwise_cons.mpr ⟨?_, cumFrom_pairwise fun u hu => hw u (List.mem_cons_of_mem _ hu)⟩
    exact cumFrom_mem_le fun u hu => hw u (List.mem_cons_of_mem _ hu)

theorem getLastD_eq_get {l : List ℚ} (d : ℚ) (h : l ≠ []) :
    l.getLastD d = l.get ⟨l.length - 1, by cases l with | nil => exact absurd rfl h | cons a t => simp⟩ := by
  induction l with
  | nil => exact absurd rfl h
  | cons a t ih =>
    cases t with
    | nil => rfl
    | cons b t2 =>
      have := ih (by simp)
      simpa using this

theorem cumWeights_cons (w : ℚ) (t : List ℚ) : cumWeights (w :: t) = w :: cumFrom w t := rfl

theorem cumFrom_getD_zero (acc u : ℚ) (t : List ℚ) :
    (cumFrom acc (u :: t)).getD 0 0 = acc + u := by
  rw [cumFrom_cons]
  rfl

theorem cumFrom_getD_succ :
    ∀ (ws : List ℚ) (acc : ℚ) (j : Nat), j + 1 < ws.length →
      (cumFrom acc ws).getD (j + 1) 0 = (cumFrom acc ws).getD j 0 + ws.getD (j + 1) 0 := by
  intro ws
  induction ws with
  | nil => intro acc j hj; simp at hj
  | cons w t ih =>
    intro acc j hj
    cases j with
    | zero =>
      cases t with
      | nil => simp at hj
      | cons u t2 =>
        rw [cumFrom_cons]
        show (cumFrom (acc + w) (u :: t2)).getD 0 0 = acc + w + u
        exact cumFrom_getD_zero _ _ _
    | succ j' =>
      have hj' : j' + 1 < t.length := by simpa using hj
      rw [cumFrom_cons]
      show (cumFrom (acc + w) t).getD (j' + 1) 0 =
        (cumFrom (acc + w) t).getD j' 0 + t.getD (j' + 1) 0
      exact ih (acc + w) j' hj'

theorem cumWeights_getD_zero (u : ℚ) (t : List ℚ) : (cumWeights (u :: t)).getD 0 0 = u := by
  rw [cumWeights_cons]
  rfl

theorem cumWeights_getD_succ (ws : List ℚ) (j : Nat) (hj : j + 1 < ws.length) :
    (cumWeights ws).getD (j + 1) 0 = (cumWeights ws).getD j 0 + ws.getD (j + 1) 0 := by
  cases ws with
  | nil => simp at hj
  | cons w t =>
    cases j with
    | zero =>
      cases t with
      | nil => simp at hj
      | cons u t2 =>
        rw [cumWeights_cons]
        show (cumFrom w (u :: t2)).getD 0 0 = w + (u :: t2).getD 0 0
        rw [cumFrom_getD_zero]
        rfl
    | succ j' =>
      have hj' : j' + 1 < t.length := by simpa using hj
      rw [cumWeights_cons]
      show (cumFrom w t).getD (j' + 1) 0 = (cumFrom w t).getD j' 0 + t.getD (j' + 1) 0
      exact cumFrom_getD_succ t w j' hj'

theorem pairwise_getD_mono {l : List ℚ} (hp : l.Pairwise (· ≤ ·)) {i j : Nat}
    (hij : i ≤ j) (hj : j < l.length) : l.getD i 0 ≤ l.getD j 0 := by
  rcases eq_or_lt_of_le hij with rfl | hlt
  · exact le_refl _
  · have := List.pairwise_iff_get.mp hp ⟨i, by omega⟩ ⟨j, hj⟩ hlt
    rwa [List.getD_eq_get _ _ (by omega : i < l.length), List.getD_eq_get _ _ hj]

/-- For a nondecreasing list, `countP (· ≤ x)` splits the list: every index
below the count satisfies the bound, every index at or above it fails it
(this is what makes the bounded `bisect_right` of `random.choices` equal to
that count). -/
theorem countP_monotone_le (x : ℚ) :
    ∀ l : List ℚ, l.Pairwise (· ≤ ·) →
      (∀ j : Nat, j < l.length → j < l.countP (fun v => decide (v ≤ x)) → l.getD j 0 ≤ x) ∧
      (∀ j : Nat, j < l.length → l.countP (fun v => decide (v ≤ x)) ≤ j → x < l.getD j 0) := by
  intro l
  induction l with
  | nil => exact fun _ => ⟨fun j hj => absurd hj (by simp), fun j hj => absurd hj (by simp)⟩
  | cons v t ih =>
    intro hp
    obtain ⟨hv_le, hpt⟩ := List.pairwise_cons.mp hp
    obtain ⟨ih1, ih2⟩ := ih hpt
    by_cases hv : v ≤ x
    · have hc : (v :: t).countP (fun u => decide (u ≤ x)) =
          t.countP (fun u => decide (u ≤ x)) + 1 := by
        rw [List.countP_cons]
        simp [hv]
      constructor
      · intro j hj hlt
        cases j with
        | zero => exact hv
        | succ j' =>
          rw [hc] at hlt
          show t.getD j' 0 ≤ x
          exact ih1 j' (by simpa using hj) (by omega)
      · intro j hj hge
        rw [hc] at hge
        cases j with
        | zero => omega
        | succ j' =>
          show x < t.getD j' 0
          exact ih2 j' (by simpa using hj) (by omega)
    · have ht0 : t.countP (fun u => decide (u ≤ x)) = 0 := by
        rw [List.countP_eq_zero]
        intro a ha
        simp only [decide_eq_true_eq]
        intro hax
        exact hv (le_trans (hv_le a ha) hax)
      have hc : (v :: t).countP (fun u => decide (u ≤ x)) = 0 := by
        rw [List.countP_cons, ht0]
        simp [hv]
      constructor
      · intro j hj hlt
        rw [hc] at hlt
        omega
      · intro j hj _
        have hxv : x < v := lt_of_not_le hv
        cases j with
        | zero => exact hxv
        | succ j' =>
          show x < t.getD j' 0
          have hj' : j' < t.length := by simpa using hj
          rw [List.getD_eq_get _ _ hj']
          exact lt_of_lt_of_le hxv (hv_le _ (List.get_mem t j' hj'))

theorem getLastD_eq_getD : ∀ (l : List ℚ) (d : ℚ), l ≠ [] → l.getLastD d = l.getD (l.length - 1) d := by
  intro l
  induction l with
  | nil => intro d h; exact absurd rfl h
  | cons a t ih =>
    intro d h
    cases t with
    | nil => rfl
    | cons b t2 =>
      have h1 : (a :: b :: t2).getLastD d = (b :: t2).getLastD a := rfl
      rw [h1, ih a (by simp)]
      rw [List.getD_eq_get _ _ (by simp), List.getD_eq_get _ _ (by simp)]
      simp only [List.length_cons, Nat.add_sub_cancel]
      rfl

theorem cumWeights_getD_zero' {ws : List ℚ} (h : ws ≠ []) :
    (cumWeights ws).getD 0 0 = ws.getD 0 0 := by
  cases ws with
  | nil => exact absurd rfl h
  | cons w t =>
    rw [cumWeights_getD_zero]
    rfl

theorem cum_getD_nonneg {ws : List ℚ} (hwge : ∀ w ∈ ws, 0 ≤ w) {k : Nat}
    (hk : k < ws.length) : 0 ≤ (cumWeights ws).getD k 0 := by
  have hne : ws ≠ [] := by
    intro he
    rw [he] at hk
    simp at hk
  have h0 : 0 ≤ (cumWeights ws).getD 0 0 := by
    rw [cumWeights_getD_zero' hne]
    cases ws with
    | nil => exact absurd rfl hne
    | cons w t => exact hwge w (List.mem_cons_self _ _)
  calc (0:ℚ) ≤ (cumWeights ws).getD 0 0 := h0
    _ ≤ (cumWeights ws).getD k 0 :=
      pairwise_getD_mono (cumWeights_pairwise hwge) (Nat.zero_le k)
        (by rw [cumWeights_length]; exact hk)

theorem cum_getD_ge_weight {ws : List ℚ} (hwge : ∀ w ∈ ws, 0 ≤ w) {j : Nat}
    (hj : j < ws.length) : ws.getD j 0 ≤ (cumWeights ws).getD j 0 := by
  cases j with
  | zero =>
    rw [cumWeights_getD_zero' (by intro he; rw [he] at hj; simp at hj)]
  | succ j' =>
    rw [cumWeights_getD_succ ws j' hj]
    have := @cum_getD_nonneg ws hwge j' (by omega)
    linarith

theorem cum_total_pos {ws : List ℚ} (hwge : ∀ w ∈ ws, 0 ≤ w) {j : Nat} (hj : j < ws.length)
    (hpos : 0 < ws.getD j 0) : 0 < (cumWeights ws).getLastD 0 := by
  have hne : ws ≠ [] := by
    intro he
    rw [he] at hj
    simp at hj
  have hcumne : cumWeights ws ≠ [] := by
    have := cumWeights_length ws
    intro he
    rw [he] at this
    cases ws with
    | nil => exact absurd rfl hne
    | cons w t => simp at this
  rw [getLastD_eq_getD _ _ hcumne, cumWeights_length]
  calc (0:ℚ) < ws.getD j 0 := hpos
    _ ≤ (cumWeights ws).getD j 0 := cum_getD_ge_weight hwge hj
    _ ≤ (cumWeights ws).getD (ws.length - 1) 0 :=
      pairwise_getD_mono (cumWeights_pairwise hwge) (by omega)
        (by rw [cumWeights_length]; omega)

/-- The bounded `bisect_right` index of `random.choices` always lands on an
entry with positive weight when `0 ≤ x <` total. -/
theorem bisect_pick {ws : List ℚ} {x : ℚ} (hne : ws ≠ []) (hwge : ∀ w ∈ ws, 0 ≤ w)
    (hx0 : 0 ≤ x) (hxlt : x < (cumWeights ws).getLastD 0) :
    ((cumWeights ws).take (ws.length - 1)).countP (fun c => decide (c ≤ x)) < ws.length ∧
      0 < ws.getD (((cumWeights ws).take (ws.length - 1)).countP
        (fun c => decide (c ≤ x))) 0 := by
  have hnpos : 0 < ws.length := List.length_pos.mpr hne
  have hcumlen : (cumWeights ws).length = ws.length := cumWeights_length ws
  have hcumne : cumWeights ws ≠ [] := by
    intro he
    rw [he] at hcumlen
    simp at hcumlen
    omega
  have htakelen : ((cumWeights ws).take (ws.length - 1)).length = ws.length - 1 := by
    rw [List.length_take, hcumlen]
    omega
  have hile : ((cumWeights ws).take (ws.length - 1)).countP (fun c => decide (c ≤ x)) ≤
      ws.length - 1 := (List.countP_le_length _).trans (le_of_eq htakelen)
  have hsorted := cumWeights_pairwise hwge
  have hsortedTake : ((cumWeights ws).take (ws.length - 1)).Pairwise (· ≤ ·) :=
    List.Pairwise.sublist (List.take_sublist _ _) hsorted
  obtain ⟨char1, char2⟩ := countP_monotone_le x _ hsortedTake
  have htake_getD : ∀ j, j < ws.length - 1 →
      ((cumWeights ws).take (ws.length - 1)).getD j 0 = (cumWeights ws).getD j 0 := by
    intro j hj
    rw [List.getD_eq_get _ _ (by rw [htakelen]; exact hj),
      List.getD_eq_get _ _ (by rw [hcumlen]; omega)]
    exact (List.get_take _ (by rw [hcumlen]; omega) hj).symm
  have htotal : (cumWeights ws).getLastD 0 = (cumWeights ws).getD (ws.length - 1) 0 := by
    rw [getLastD_eq_getD _ _ hcumne, hcumlen]
  refine ⟨by omega, ?_⟩
  generalize hgen : ((cumWeights ws).take (ws.length - 1)).countP (fun c => decide (c ≤ x)) = i
    at hile char1 char2 ⊢
  cases i with
  | zero =>
    by_cases h1 : ws.length - 1 = 0
    · rw [htotal, h1] at hxlt
      rw [cumWeights_getD_zero' hne] at hxlt
      linarith
    · have h2 := char2 0 (by omega) (by omega)
      rw [htake_getD 0 (by omega)] at h2
      rw [cumWeights_getD_zero' hne] at h2
      linarith
  | succ j =>
    have hjlt : j < ws.length - 1 := by omega
    have hlow : (cumWeights ws).getD j 0 ≤ x := by
      have h3 := char1 j (by omega) (by omega)
      rwa [htake_getD j hjlt] at h3
    have hup : x < (cumWeights ws).getD (j + 1) 0 := by
      by_cases h2 : j + 1 < ws.length - 1
      · have h4 := char2 (j + 1) (by omega) (by omega)
        rwa [htake_getD (j + 1) h2] at h4
      · have hje : j + 1 = ws.length - 1 := by omega
        rw [hje]
        rw [htotal] at hxlt
        exact hxlt
    rw [cumWeights_getD_succ ws j (by omega)] at hup
    linarith

theorem weighted_choice_nil_iff (types : List SlotTypeR) (r : ℚ) :
    weighted_choice types r = .nil ↔ types = [] := by
  cases types with
  | nil => simp [weighted_choice]
  | cons ty rest =>
    constructor
    · intro h
      unfold weighted_choice at h
      dsimp only at h
      by_cases hle : (cumWeights ((ty :: rest).map SlotTypeR.weight)).getLastD 0 ≤ 0
      · rw [if_pos hle] at h
        exact absurd h (by simp)
      · rw [if_neg hle] at h
        exact absurd h (by simp)
    · intro h
      simp at h

theorem weighted_choice_pick_pos (types : List SlotTypeR) (r : ℚ)
    (hr0 : 0 ≤ r) (hr1 : r < 1) (hw : ∀ t ∈ types, 0 ≤ t.weight)
    (hex : ∃ t ∈ types, 0 < t.weight) :
    ∃ (i : Nat) (h : i < types.length),
      weighted_choice types r = .pick ((types.get ⟨i, h⟩).name) ∧
        0 < (types.get ⟨i, h⟩).weight := by
  obtain ⟨t0, ht0mem, ht0pos⟩ := hex
  cases types with
  | nil => simp at ht0mem
  | cons ty rest =>
    have hwge : ∀ w ∈ (ty :: rest).map SlotTypeR.weight, 0 ≤ w := by
      intro w hw'
      rcases List.mem_map.mp hw' with ⟨t, htmem, rfl⟩
      exact hw t htmem
    have hmaplen : ((ty :: rest).map SlotTypeR.weight).length = (ty :: rest).length := by simp
    obtain ⟨⟨j0, hj0⟩, hj0eq⟩ := List.mem_iff_get.mp ht0mem
    have hwpos_j0 : 0 < ((ty :: rest).map SlotTypeR.weight).getD j0 0 := by
      rw [List.getD_eq_get _ _ (by rw [hmaplen]; exact hj0)]
      have hg : ((ty :: rest).map SlotTypeR.weight).get ⟨j0, by rw [hmaplen]; exact hj0⟩ =
          ((ty :: rest).get ⟨j0, hj0⟩).weight := by
        rw [List.get_map]
      rw [hg, hj0eq]
      exact ht0pos
    have htotpos : 0 < (cumWeights ((ty :: rest).map SlotTypeR.weight)).getLastD 0 :=
      @cum_total_pos ((ty :: rest).map SlotTypeR.weight) hwge j0
        (by rw [hmaplen]; exact hj0) hwpos_j0
    have hx0 : 0 ≤ qmul r ((cumWeights ((ty :: rest).map SlotTypeR.weight)).getLastD 0) := by
      rw [qmul_eq]
      exact mul_nonneg hr0 htotpos.le
    have hxlt : qmul r ((cumWeights ((ty :: rest).map SlotTypeR.weight)).getLastD 0) <
        (cumWeights ((ty :: rest).map SlotTypeR.weight)).getLastD 0 := by
      rw [qmul_eq]
      exact mul_lt_of_lt_one_left htotpos hr1
    obtain ⟨hidx, hwposi⟩ := bisect_pick (by simp) hwge hx0 hxlt
    rw [hmaplen] at hidx hwposi
    refine ⟨((cumWeights ((ty :: rest).map SlotTypeR.weight)).take
        ((ty :: rest).length - 1)).countP
          (fun c => decide (c ≤ qmul r ((cumWeights ((ty :: rest).map
            SlotTypeR.weight)).getLastD 0))), hidx, ?_, ?_⟩
    · unfold weighted_choice
      dsimp only
      rw [if_neg (not_le.mpr htotpos)]
      have hnames : ((ty :: rest).map SlotTypeR.name).getD
          (((cumWeights ((ty :: rest).map SlotTypeR.weight)).take
            ((ty :: rest).length - 1)).countP
              (fun c => decide (c ≤ qmul r ((cumWeights ((ty :: rest).map
                SlotTypeR.weight)).getLastD 0)))) "" =
          ((ty :: rest).get ⟨_, hidx⟩).name := by
        rw [List.getD_eq_get _ _ (by simp only [List.length_map]; exact hidx)]
        rw [List.get_map]
      rw [hnames]
    · have hwi : ((ty :: rest).map SlotTypeR.weight).getD
          (((cumWeights ((ty :: rest).map SlotTypeR.weight)).take
            ((ty :: rest).length - 1)).countP
              (fun c => decide (c ≤ qmul r ((cumWeights ((ty :: rest).map
                SlotTypeR.weight)).getLastD 0)))) 0 =
          ((ty :: rest).get ⟨_, hidx⟩).weight := by
        rw [List.getD_eq_get _ _ (by simp only [List.length_map]; exact hidx)]
        rw [List.get_map]
      rw [hwi] at hwposi
      exact hwposi

/-! ## Lemmas: auto-fill loop structure -/

theorem afLoop_flags_length (rand : AFRand) (day : Int) :
    ∀ (fuel : Nat) (st : State) (ctr : Nat), (afLoop rand day fuel st ctr).2.length ≤ fuel := by
  intro fuel
  induction fuel with
  | zero => intro st ctr; simp [afLoop]
  | succ n ih =>
    intro st ctr
    unfold afLoop
    dsimp only
    split
    · simp
    · split
      · simp only [List.length_cons]
        exact Nat.succ_le_succ (ih _ _)
      · simp

theorem afLoop_flags_true (rand : AFRand) (day : Int) :
    ∀ (fuel : Nat) (st : State) (ctr : Nat) (i : Nat),
      i + 1 < (afLoop rand day fuel st ctr).2.length →
      (afLoop rand day fuel st ctr).2.getD i false = true := by
  intro fuel
  induction fuel with
  | zero => intro st ctr i h; simp [afLoop] at h
  | succ n ih =>
    intro st ctr i h
    unfold afLoop at h ⊢
    dsimp only at h ⊢
    by_cases hc : (afRound rand day st ctr st.brygady).crashed = true
    · rw [if_pos hc] at h
      simp at h
    · rw [if_neg hc] at h ⊢
      by_cases ha : (afRound rand day st ctr st.brygady).added = true
      · rw [if_pos ha] at h ⊢
        cases i with
        | zero => simpa using ha
        | succ i' =>
          simp only [List.length_cons] at h
          have hrec := ih (afRound rand day st ctr st.brygady).st
            (afRound rand day st ctr st.brygady).ctr i' (by omega)
          simpa using hrec
      · rw [if_neg ha] at h
        simp at h

theorem afCrewStep_skip (rand : AFRand) (day : Int) (st : State) (ctr : Nat) (b : String)
    (wh : Int × Int) (hwh : alookup st.working_hours b = some wh)
    (hfull : wh_minutes wh.1 wh.2 ≤
      ((schedGet st.schedules b day).map Slot.duration_min).sum) :
    (∀ b' d', schedGet (afCrewStep rand day st ctr b).st.schedules b' d' =
      schedGet st.schedules b' d') ∧
    (afCrewStep rand day st ctr b).ctr = ctr ∧
    (afCrewStep rand day st ctr b).added = false := by
  unfold afCrewStep
  rw [hwh]
  dsimp only
  have hcond : wh_minutes wh.1 wh.2 ≤
      ((schedGet (schedSet st.schedules b day (schedGet st.schedules b day)) b day).map
        Slot.duration_min).sum := by
    rw [schedGet_schedSet, if_pos ⟨rfl, rfl⟩]
    exact hfull
  rw [if_pos hcond]
  refine ⟨?_, rfl, rfl⟩
  intro b' d'
  dsimp only
  rw [schedGet_schedSet]
  split
  · next hbd => rw [hbd.1, hbd.2]
  · rfl

/-! ## Lemmas: the head of a stable sort is minimal -/

theorem insertionSort_head_min {r : Cand → Cand → Prop} [DecidableRel r] [IsTotal Cand r]
    [IsTrans Cand r] {l : List Cand} {c : Cand} {rest : List Cand}
    (h : l.insertionSort r = c :: rest) : ∀ x ∈ l, x = c ∨ r c x := by
  have hs := List.sorted_insertionSort r l
  rw [h] at hs
  have hp := List.pairwise_cons.mp hs
  intro x hx
  have hx2 : x ∈ l.insertionSort r := (List.mem_insertionSort r).mpr hx
  rw [h] at hx2
  rcases List.mem_cons.mp hx2 with rfl | hmem
  · exact Or.inl rfl
  · exact Or.inr (hp.1 x hmem)

/-! ## Lemmas: all-zero weights -/

theorem cumFrom_all_zero {ws : List ℚ} (h0 : ∀ w ∈ ws, w = 0) :
    ∀ (acc : ℚ), ∀ v ∈ cumFrom acc ws, v = acc := by
  induction ws with
  | nil => intro acc v hv; simp [cumFrom] at hv
  | cons w t ih =>
    intro acc v hv
    have hw0 : w = 0 := h0 w (List.mem_cons_self _ _)
    rw [cumFrom_cons, hw0, add_zero] at hv
    rcases List.mem_cons.mp hv with rfl | hv2
    · rfl
    · exact ih (fun u hu => h0 u (List.mem_cons_of_mem _ hu)) acc v hv2

theorem cumWeights_all_zero_getLastD {ws : List ℚ} (h0 : ∀ w ∈ ws, w = 0) :
    (cumWeights ws).getLastD 0 = 0 := by
  cases ws with
  | nil => rfl
  | cons w t =>
    have hw0 : w = 0 := h0 w (List.mem_cons_self _ _)
    have hall : ∀ v ∈ cumWeights (w :: t), v = 0 := by
      intro v hv
      rw [cumWeights_cons] at hv
      rcases List.mem_cons.mp hv with rfl | hv2
      · exact hw0
      · rw [cumFrom_all_zero (fun u hu => h0 u (List.mem_cons_of_mem _ hu)) w v hv2]
        exact hw0
    have hne : cumWeights (w :: t) ≠ [] := by
      rw [cumWeights_cons]
      simp
    rw [getLastD_eq_getD _ _ hne]
    have hlen : 0 < (cumWeights (w :: t)).length := by
      rw [cumWeights_length]
      simp
    rw [List.getD_eq_get _ _ (by omega)]
    exact hall _ (List.get_mem _ _ _)

/-! ## Claims -/

/-- C1: No-overlap invariant: for every crew and every day, after any sequence
of operations that mutate the schedule (booking a selected candidate,
`schedule_client_immediately`, auto-fill, deletion), the stored list of
bookings for that crew/day never contains two bookings whose `[start, end)`
intervals overlap. -/
theorem C1_no_overlap_invariant (ops : List Op) (st0 : State)
    (h0 : NoOverlapState st0) : NoOverlapState (runOps st0 ops) :=
  runOps_preserves ops st0 h0

/-- Witness for C1 at a fresh state and a sequence exercising all four
mutating operations. -/
theorem C1_no_overlap_invariant_witness :
    NoOverlapState (runOps state0
      [Op.schedImm "K1" "Standard" 0 480 960,
       Op.book 0 "Standard" 60 "K2" ⟨"Brygada 1", 540, 600⟩,
       Op.auto ⟨fun _ => 0, fun _ => 0⟩ 0,
       Op.del "Brygada 1" 0 480]) :=
  C1_no_overlap_invariant _ state0 (fun b d => by
    simp [state0, schedGet, alookup, DayNoOverlap])

/-- C2: Candidate soundness (and the returned-when-free completeness of the
half-open overlap test): every candidate returned by
`get_available_slots_for_day` lies on the step grid inside its crew's working
window — `windowStart ≤ start` and `start + duration ≤ windowEnd` — and
overlaps no existing booking of that crew/day; conversely every grid point
that fits the window and overlaps no existing booking (touching endpoints is
not an overlap) is returned. -/
theorem C2_candidate_soundness (st : State) (day m : Int) (hm : 0 < m) :
    (∀ c ∈ get_available_slots_for_day st day m SEARCH_STEP_MINUTES,
      (combineWindow day (lookupWH st c.brygada).1 (lookupWH st c.brygada).2).1 ≤ c.start ∧
      c.stop = c.start + m ∧
      c.start + m ≤ (combineWindow day (lookupWH st c.brygada).1 (lookupWH st c.brygada).2).2 ∧
      ∀ s ∈ get_day_slots_for_brygada st c.brygada day,
        c.start + m ≤ s.start ∨ s.stop ≤ c.start) ∧
    (∀ b ∈ st.brygady, ∀ k : Nat,
      (combineWindow day (lookupWH st b).1 (lookupWH st b).2).1 + SEARCH_STEP_MINUTES * k + m ≤
        (combineWindow day (lookupWH st b).1 (lookupWH st b).2).2 →
      (∀ s ∈ get_day_slots_for_brygada st b day,
        (combineWindow day (lookupWH st b).1 (lookupWH st b).2).1 +
            SEARCH_STEP_MINUTES * k + m ≤ s.start ∨
          s.stop ≤ (combineWindow day (lookupWH st b).1 (lookupWH st b).2).1 +
            SEARCH_STEP_MINUTES * k) →
      (⟨b, (combineWindow day (lookupWH st b).1 (lookupWH st b).2).1 + SEARCH_STEP_MINUTES * k,
        (combineWindow day (lookupWH st b).1 (lookupWH st b).2).1 + SEARCH_STEP_MINUTES * k + m⟩ :
          Cand) ∈ get_available_slots_for_day st day m SEARCH_STEP_MINUTES) := by
  constructor
  · intro c hc
    rcases mem_available.mp hc with ⟨b, hb, hcb⟩
    rcases (mem_crewAvailable (by decide)).mp hcb with ⟨k, hbry, hstart, hstop, hlim, hfree⟩
    subst hbry
    have hk0 : (0:Int) ≤ SEARCH_STEP_MINUTES * (k : Int) :=
      mul_nonneg (by decide) (Int.natCast_nonneg k)
    refine ⟨by rw [hstart]; linarith, hstop, hlim, ?_⟩
    intro s hs
    exact hfree s (mem_get_day_slots.mp hs)
  · intro b hb k hfit hfree
    apply mem_available.mpr
    refine ⟨b, hb, (mem_crewAvailable (by decide)).mpr ⟨k, rfl, rfl, rfl, ?_, ?_⟩⟩
    · exact hfit
    · intro s hs
      exact hfree s (mem_get_day_slots.mpr hs)

/-- Witness for C2: one crew 08:00–10:00 with an 08:00–09:00 booking,
60-minute duration. -/
theorem C2_candidate_soundness_witness :
    (0:Int) < 60 ∧
      ((⟨"A", 540, 600⟩ : Cand) ∈ get_available_slots_for_day state2 0 60 SEARCH_STEP_MINUTES →
        (combineWindow 0 (lookupWH state2 "A").1 (lookupWH state2 "A").2).1 ≤ 540) :=
  ⟨by decide, fun hc => ((C2_candidate_soundness state2 0 60 (by decide)).1 _ hc).1⟩

/-- C3: Commit staleness guard: committing a previously enumerated candidate
runs the insert only when the candidate is in the freshly re-enumerated
availability list for the live store, so a commit whose requested
`[start, start+duration)` interval now overlaps an existing booking of that
crew/day fails (no insert, state unchanged); committing the same candidate
twice inserts exactly one booking and the second attempt fails. -/
theorem C3_commit_staleness_guard (st : State) (day m : Int) (tn cl cl2 : String)
    (c : Cand) (hm : 0 < m) :
    ((∃ s ∈ schedGet st.schedules c.brygada day,
        s.start < c.start + m ∧ c.start < s.stop) →
      book_candidate st day tn m cl c = (.slotNoLongerAvailable, st)) ∧
    (∀ st1, book_candidate st day tn m cl c = (.booked, st1) →
      book_candidate st1 day tn m cl2 c = (.slotNoLongerAvailable, st1) ∧
      (schedGet st1.schedules c.brygada day).length =
        (schedGet st.schedules c.brygada day).length + 1) := by
  have hfail : ∀ (stx : State) (clx : String),
      (∃ s ∈ schedGet stx.schedules c.brygada day,
        s.start < c.start + m ∧ c.start < s.stop) →
      book_candidate stx day tn m clx c = (.slotNoLongerAvailable, stx) := by
    rintro stx clx ⟨s, hs, hov1, hov2⟩
    unfold book_candidate
    rw [if_neg ?_]
    intro hc
    obtain ⟨hstop, hfree⟩ := availCandidate_free (by decide) hc
    rcases hfree s hs with h | h <;> omega
  refine ⟨hfail st cl, ?_⟩
  intro st1 hb
  by_cases hmem : c ∈ get_available_slots_for_day st day m SEARCH_STEP_MINUTES
  · obtain ⟨hstop, _⟩ := availCandidate_free (by decide) hmem
    unfold book_candidate at hb
    rw [if_pos hmem] at hb
    injection hb with hb1 hb2
    subst hb2
    have hget : schedGet
        ({ add_slot_to_brygada st c.brygada day
            { start := c.start, stop := c.stop, slot_type := tn, duration_min := m,
              client := cl, pref_range := none } with
          client_counter := st.client_counter + 1 }).schedules c.brygada day =
        (schedGet st.schedules c.brygada day ++
          [({ start := c.start, stop := c.stop, slot_type := tn, duration_min := m,
              client := cl, pref_range := none } : Slot)]).insertionSort slotStartLe := by
      unfold add_slot_to_brygada
      dsimp only
      rw [schedGet_schedSet, if_pos ⟨rfl, rfl⟩]
    constructor
    · apply hfail
      refine ⟨({ start := c.start, stop := c.stop, slot_type := tn, duration_min := m,
                 client := cl, pref_range := none } : Slot), ?_, by dsimp only; omega,
              by dsimp only; omega⟩
      rw [hget, List.mem_insertionSort]
      exact List.mem_append_right _ (List.mem_singleton_self _)
    · rw [hget, (List.perm_insertionSort _ _).length_eq]
      simp
  · unfold book_candidate at hb
    rw [if_neg hmem] at hb
    exact absurd hb (by simp)

/-- Witness for C3: in the one-crew empty state, committing the 08:00
candidate succeeds and a second commit of the same candidate fails. -/
theorem C3_commit_staleness_guard_witness :
    (0:Int) < 60 ∧
      book_candidate (book_candidate state3 0 "Standard" 60 "K1" ⟨"A", 480, 540⟩).2
          0 "Standard" 60 "K2" ⟨"A", 480, 540⟩ =
        (.slotNoLongerAvailable, (book_candidate state3 0 "Standard" 60 "K1" ⟨"A", 480, 540⟩).2) :=
  ⟨by decide,
    ((C3_commit_staleness_guard state3 0 60 "Standard" "K1" "K2" ⟨"A", 480, 540⟩
        (by decide)).2
      (book_candidate state3 0 "Standard" 60 "K1" ⟨"A", 480, 540⟩).2 (by decide)).1⟩

/-- C4: Overnight window rule: combining a (start, end) time-of-day pair with
a day advances the end by exactly one day when `end ≤ start` (and not
otherwise), the window length always equals `_wh_minutes`; consequently
work hours 22:00–06:00 give an 8-hour window spanning midnight, and a
90-minute slot starting 23:00 fits inside it. -/
theorem C4_overnight_window (day s e : Int) :
    ((combineWindow day s e).2 - (combineWindow day s e).1 = wh_minutes s e) ∧
    (e ≤ s → (combineWindow day s e).2 = (day + 1) * 1440 + e) ∧
    (s < e → (combineWindow day s e).2 = day * 1440 + e) ∧
    (wh_minutes 1320 360 = 480) ∧
    ((combineWindow day 1320 360).2 - (combineWindow day 1320 360).1 = 480 ∧
      (combineWindow day 1320 360).1 < (day + 1) * 1440 ∧
      (day + 1) * 1440 < (combineWindow day 1320 360).2 ∧
      (combineWindow day 1320 360).1 ≤ day * 1440 + 1380 ∧
      day * 1440 + 1380 + 90 ≤ (combineWindow day 1320 360).2) := by
  refine ⟨?_, ?_, ?_, by decide, ?_⟩ <;>
    simp only [combineWindow, wh_minutes] <;> split_ifs <;> omega

/-- Witness for C4 at day 5 (discharging the overnight hypothesis). -/
theorem C4_overnight_window_witness :
    (360:Int) ≤ 1320 ∧ (combineWindow 5 1320 360).2 = (5 + 1) * 1440 + 360 :=
  ⟨by decide, (C4_overnight_window 5 1320 360).2.1 (by decide)⟩

/-- C5: Global candidate ordering: the availability list across all crews is
sorted by (start, crew name) lexicographically ascending — earlier starts
first regardless of crew, ties ordered by crew name (code-point
lexicographic, Python string order). -/
theorem C5_global_ordering (st : State) (day m step : Int) :
    (get_available_slots_for_day st day m step).Pairwise (fun a b =>
      a.start < b.start ∨ (a.start = b.start ∧ a.brygada ≤ b.brygada)) := by
  have hs := List.sorted_insertionSort candLe
    (st.brygady.flatMap fun b => crewAvailable st b day m step)
  refine hs.imp ?_
  intro a b hab
  rcases hab with h | ⟨h, hsb⟩
  · exact Or.inl h
  · exact Or.inr ⟨h, (strLeB_eq_le _ _).mp hsb⟩

/-- C6: Arrival-window computation and clipping (modelled from the spec, the
buffers being absent from the source file): the window has fixed length
`bufferBefore + bufferAfter`; it is shifted forward so its start equals the
working-hours start when the unclipped window starts earlier, shifted
backward so its end equals the working-hours end when the unclipped window
ends later, and left alone otherwise; crew hours 08:00–16:00 with buffers
15/15 and slot start 08:05 give the window [08:00, 08:30]. -/
theorem C6_arrival_window_clipping (whs whe start bb ba : Int)
    (hfit : bb + ba ≤ whe - whs) :
    ((arrivalWindow whs whe start bb ba).2 - (arrivalWindow whs whe start bb ba).1 =
      bb + ba) ∧
    (start - bb < whs → arrivalWindow whs whe start bb ba = (whs, whs + (bb + ba))) ∧
    (whs ≤ start - bb → whe < start + ba →
      arrivalWindow whs whe start bb ba = (whe - (bb + ba), whe)) ∧
    (whs ≤ start - bb → start + ba ≤ whe →
      arrivalWindow whs whe start bb ba = (start - bb, start + ba)) ∧
    (arrivalWindow 480 960 485 15 15 = (480, 510)) := by
  refine ⟨?_, ?_, ?_, ?_, by decide⟩ <;>
    simp only [arrivalWindow] <;> split_ifs <;>
      first
        | omega
        | rfl
        | (intro h1; exfalso; omega)
        | (intro h1; rfl)
        | (intro h1 h2; exfalso; omega)
        | (intro h1 h2; rfl)

/-- Witness for C6: the spec's clipping scenario. -/
theorem C6_arrival_window_clipping_witness :
    ((15:Int) + 15 ≤ 960 - 480) ∧ arrivalWindow 480 960 485 15 15 = (480, 510) :=
  ⟨by decide, (C6_arrival_window_clipping 480 960 485 15 15 (by decide)).2.2.2.2⟩

/-- C7: Slot-catalogue parse tolerance: a non-blank line is skipped (the
whole parse does not fail) when its minutes field is missing, fails `int()`
or is `≤ 0`, or its weight field fails `float()` or parses negative; a
well-formed line contributes its slot type to the result, with the weight
defaulting to `1.0` when omitted. -/
theorem C7_parse_tolerance (lines : List String) (line : String) :
    (line ∈ lines → ∀ ty, lineResult line = some ty → ty ∈ parse_slot_types lines) ∧
    (∀ name, lineParts (trimChars line.data) = [name] → lineResult line = none) ∧
    (∀ name m rest, lineParts (trimChars line.data) = name :: m :: rest →
      (pyInt? m.data = none ∨ ∃ v, pyInt? m.data = some v ∧ v ≤ 0) →
      lineResult line = none) ∧
    (∀ name m w rest, lineParts (trimChars line.data) = name :: m :: w :: rest →
      (pyFloat? w.data = none ∨ ∃ f, pyFloat? w.data = some f ∧ pfLt0 f = true) →
      lineResult line = none) ∧
    (∀ name m v, lineParts (trimChars line.data) = [name, m] → pyInt? m.data = some v →
      0 < v → lineResult line = some ⟨name, v, .finite 1⟩) ∧
    (∀ name m w rest v f, lineParts (trimChars line.data) = name :: m :: w :: rest →
      pyInt? m.data = some v → 0 < v → pyFloat? w.data = some f → pfLt0 f = false →
      lineResult line = some ⟨name, v, f⟩) := by
  refine ⟨?_, ?_, ?_, ?_, ?_, ?_⟩
  · intro hline ty hres
    unfold parse_slot_types
    exact List.mem_filterMap.mpr ⟨line, hline, hres⟩
  · intro name hparts
    unfold lineResult
    by_cases hraw : trimChars line.data = []
    · rw [if_pos hraw]
    · rw [if_neg hraw, hparts]
      rfl
  · intro name m rest hparts hbad
    unfold lineResult
    by_cases hraw : trimChars line.data = []
    · rw [if_pos hraw]
    · rw [if_neg hraw, hparts]
      dsimp only [parseSlotLine]
      rcases hbad with hnone | ⟨v, hv, hvle⟩
      · rw [hnone]
      · rw [hv]
        dsimp only
        cases rest with
        | nil =>
          dsimp only
          rw [if_pos hvle]
        | cons w rest2 =>
          dsimp only
          cases hf : pyFloat? w.data with
          | none => rfl
          | some q =>
            dsimp only
            rw [if_pos hvle]
  · intro name m w rest hparts hbad
    unfold lineResult
    by_cases hraw : trimChars line.data = []
    · rw [if_pos hraw]
    · rw [if_neg hraw, hparts]
      dsimp only [parseSlotLine]
      cases hm : pyInt? m.data with
      | none => rfl
      | some v =>
        dsimp only
        rcases hbad with hnone | ⟨f, hf, hfneg⟩
        · rw [hnone]
        · rw [hf]
          dsimp only
          by_cases hv0 : v ≤ 0
          · rw [if_pos hv0]
          · rw [if_neg hv0, if_pos hfneg]
  · intro name m v hparts hm hvpos
    unfold lineResult
    by_cases hraw : trimChars line.data = []
    · rw [hraw] at hparts
      simp [lineParts, splitComma, splitCommaAux, trimChars] at hparts
    · rw [if_neg hraw, hparts]
      dsimp only [parseSlotLine]
      rw [hm]
      dsimp only
      rw [if_neg (by omega), if_neg (by decide)]
  · intro name m w rest v f hparts hm hvpos hf hfge
    unfold lineResult
    by_cases hraw : trimChars line.data = []
    · rw [hraw] at hparts
      simp [lineParts, splitComma, splitCommaAux, trimChars] at hparts
    · rw [if_neg hraw, hparts]
      dsimp only [parseSlotLine]
      rw [hm]
      dsimp only
      rw [hf]
      dsimp only
      rw [if_neg (by omega), if_neg (by simp [hfge])]

/-- Witness for C7: a well-formed line whose weight uses exponent notation
lands in the parse result (alongside an underscored-minutes line and a
negative-weight line that is skipped). -/
theorem C7_parse_tolerance_witness :
    ("A, 30, 1e3" : String) ∈ ["Typ, 1_000", "A, 30, 1e3", "W, 30, -1"] ∧
      (⟨"A", 30, .finite (mkRat 1000 1)⟩ : SlotTypeP) ∈
        parse_slot_types ["Typ, 1_000", "A, 30, 1e3", "W, 30, -1"] :=
  ⟨by decide,
    (C7_parse_tolerance ["Typ, 1_000", "A, 30, 1e3", "W, 30, -1"] "A, 30, 1e3").1
      (by decide) _ (by decide)⟩

/-- C8 counterexample: a non-empty catalogue with all weights ≥ 0 (namely all
zero) makes `weighted_choice` raise (`random.choices` `ValueError`: total of
weights must be greater than zero) instead of returning an entry's name. -/
theorem C8_weighted_pick_cex :
    (∀ t ∈ [(⟨"A", 30, 0⟩ : SlotTypeR)], 0 ≤ t.weight) ∧
      weighted_choice [⟨"A", 30, 0⟩] (mkRat 1 2) = .wcError := by
  constructor
  · decide
  · decide

/-- C8 (amended): `weighted_choice` returns `None` exactly when the catalogue
is empty; on a non-empty catalogue with nonnegative weights and at least one
positive weight it returns the name of an entry with positive weight (never a
zero-weight entry); when the catalogue is non-empty and every weight is zero
it raises `ValueError` instead of returning a name. -/
theorem C8_weighted_pick_amended (types : List SlotTypeR) (r : ℚ) (hr0 : 0 ≤ r)
    (hr1 : r < 1) (hw : ∀ t ∈ types, 0 ≤ t.weight) :
    (weighted_choice types r = .nil ↔ types = []) ∧
    ((∃ t ∈ types, 0 < t.weight) →
      ∃ (i : Nat) (h : i < types.length),
        weighted_choice types r = .pick ((types.get ⟨i, h⟩).name) ∧
          0 < (types.get ⟨i, h⟩).weight) ∧
    (types ≠ [] → (∀ t ∈ types, t.weight = 0) → weighted_choice types r = .wcError) := by
  refine ⟨weighted_choice_nil_iff types r,
    fun hex => weighted_choice_pick_pos types r hr0 hr1 hw hex, ?_⟩
  intro hne h0
  cases types with
  | nil => exact absurd rfl hne
  | cons ty rest =>
    have hz : ∀ w ∈ (ty :: rest).map SlotTypeR.weight, w = 0 := by
      intro w hw'
      rcases List.mem_map.mp hw' with ⟨t, htmem, rfl⟩
      exact h0 t htmem
    unfold weighted_choice
    dsimp only
    rw [if_pos (le_of_eq (cumWeights_all_zero_getLastD hz))]

/-- Witness for C8 at a two-entry catalogue (weights 0 and 2) and draw 1/2. -/
theorem C8_weighted_pick_amended_witness :
    (0:ℚ) ≤ mkRat 1 2 ∧ mkRat 1 2 < 1 ∧
      (∀ t ∈ [(⟨"A", 30, 0⟩ : SlotTypeR), ⟨"B", 45, 2⟩], 0 ≤ t.weight) ∧
      (weighted_choice [(⟨"A", 30, 0⟩ : SlotTypeR), ⟨"B", 45, 2⟩] (mkRat 1 2) = .nil ↔
        [(⟨"A", 30, 0⟩ : SlotTypeR), ⟨"B", 45, 2⟩] = []) :=
  ⟨by decide, by decide, by decide,
    (C8_weighted_pick_amended [⟨"A", 30, 0⟩, ⟨"B", 45, 2⟩] (mkRat 1 2) (by decide)
      (by decide) (by decide)).1⟩

/-- C9 counterexample: from a loadable state in which crew "B" is "full" by
accumulated `duration_min` (480 ≥ 480 working minutes) yet its working window
is actually free, the very first auto-fill round books a new client onto "B"
(the attempt initiated while processing crew "A" picks B's earlier free
start), and the auto-fill loop leaves "B" with more bookings than it started
with — so a full crew can receive new bookings within a round. -/
theorem C9_full_crew_receives_booking_cex :
    wh_minutes 480 960 ≤ ((schedGet stateCex9.schedules "B" 0).map Slot.duration_min).sum ∧
    (schedGet (afRound randCex9 0 stateCex9 0 stateCex9.brygady).st.schedules "B" 0).length =
      (schedGet stateCex9.schedules "B" 0).length + 1 ∧
    1 < (schedGet (autofill randCex9 0 stateCex9).1.schedules "B" 0).length := by
  refine ⟨by decide, by decide, by decide⟩

/-- C9 (amended): the auto-fill loop runs at most `max_iterations` (5000)
rounds; a round in which no booking was added is the last round executed; and
within each round, a crew whose accumulated booked minutes for the day meet or
exceed its total working minutes is skipped — no booking attempt is initiated
for it and processing it leaves the store and the randomness counter unchanged
(though attempts initiated for other crews in the same round may still book
onto it, as the counterexample shows). -/
theorem C9_autofill_termination_bound (rand : AFRand) (day : Int) (st : State) :
    (autofill rand day st).2.length ≤ max_iterations ∧
    (∀ i, i + 1 < (autofill rand day st).2.length →
      (autofill rand day st).2.getD i false = true) ∧
    (∀ (ctr : Nat) (b : String) (wh : Int × Int), alookup st.working_hours b = some wh →
      wh_minutes wh.1 wh.2 ≤ ((schedGet st.schedules b day).map Slot.duration_min).sum →
      (∀ b' d', schedGet (afCrewStep rand day st ctr b).st.schedules b' d' =
        schedGet st.schedules b' d') ∧
      (afCrewStep rand day st ctr b).ctr = ctr ∧
      (afCrewStep rand day st ctr b).added = false) :=
  ⟨afLoop_flags_length rand day max_iterations st 0,
   fun i h => afLoop_flags_true rand day max_iterations st 0 i h,
   fun ctr b wh hwh hfull => afCrewStep_skip rand day st ctr b wh hwh hfull⟩

/-- Witness for C9 at the concrete full-crew state: processing the full crew
"B" itself initiates no attempt and adds nothing. -/
theorem C9_autofill_termination_bound_witness :
    alookup stateCex9.working_hours "B" = some (480, 960) ∧
      wh_minutes (480:Int) 960 ≤
        ((schedGet stateCex9.schedules "B" 0).map Slot.duration_min).sum ∧
      (afCrewStep randCex9 0 stateCex9 0 "B").added = false :=
  ⟨by decide, by decide,
    ((C9_autofill_termination_bound randCex9 0 stateCex9).2.2 0 "B" (480, 960) (by decide)
      (by decide)).2.2⟩

/-- C10: Implicit tie-breaking in immediate scheduling: when
`schedule_client_immediately` books, the booked slot starts at the earliest
candidate start, and among candidates sharing that start the chosen crew has
the smallest total booked minutes summed over all days of its schedule. -/
theorem C10_tie_breaking (st : State) (cl tn : String) (day ps pe : Int) (slot : Slot)
    (st' : State) (ty : SlotTypeR)
    (hty : st.slot_types.find? (fun s => decide (s.name = tn)) = some ty)
    (h : schedule_client_immediately st cl tn day ps pe = (true, some slot, st')) :
    ∃ c ∈ sciCandidates st day ty.minutes ps pe,
      slot.start = c.start ∧
      st' = add_slot_to_brygada st c.brygada day slot ∧
      ∀ c2 ∈ sciCandidates st day ty.minutes ps pe,
        c.start ≤ c2.start ∧
        (c2.start = c.start →
          totalBookedMinutes st c.brygada ≤ totalBookedMinutes st c2.brygada) := by
  unfold schedule_client_immediately at h
  rw [hty] at h
  dsimp only at h
  by_cases hemp : (sciCandidates st day ty.minutes ps pe).isEmpty
  · rw [if_pos hemp] at h
    exact absurd h (by simp)
  · rw [if_neg hemp] at h
    cases hsort : (sciCandidates st day ty.minutes ps pe).insertionSort (sciLe st) with
    | nil =>
      rw [hsort] at h
      exact absurd h (by simp)
    | cons c rest =>
      rw [hsort] at h
      dsimp only at h
      injection h with h1 h23
      injection h23 with h2 h3
      rw [Option.some.injEq] at h2
      subst h2
      subst h3
      have hcmem : c ∈ sciCandidates st day ty.minutes ps pe := by
        have hmem : c ∈ (sciCandidates st day ty.minutes ps pe).insertionSort (sciLe st) := by
          rw [hsort]
          exact List.mem_cons_self _ _
        exact (List.mem_insertionSort _).mp hmem
      have hmin := insertionSort_head_min hsort
      refine ⟨c, hcmem, rfl, rfl, ?_⟩
      intro c2 hc2
      rcases hmin c2 hc2 with rfl | hle
      · exact ⟨le_refl _, fun _ => le_refl _⟩
      · unfold sciLe at hle
        constructor
        · rcases hle with h' | ⟨h', _⟩ <;> omega
        · intro heq
          rcases hle with h' | ⟨_, h'⟩
          · omega
          · exact h'

/-- Witness for C10: in the one-crew empty state the 08:00 candidate is
booked. -/
theorem C10_tie_breaking_witness :
    (state10.slot_types.find? (fun s => decide (s.name = "Standard")) =
      some ⟨"Standard", 60, 1⟩) ∧
    ∃ c ∈ sciCandidates state10 0 60 480 600,
      slot10.start = c.start ∧
      add_slot_to_brygada state10 "A" 0 slot10 = add_slot_to_brygada state10 c.brygada 0 slot10 ∧
      ∀ c2 ∈ sciCandidates state10 0 60 480 600,
        c.start ≤ c2.start ∧
        (c2.start = c.start →
          totalBookedMinutes state10 c.brygada ≤ totalBookedMinutes state10 c2.brygada) :=
  ⟨by decide,
    C10_tie_breaking state10 "C1" "Standard" 0 480 600 slot10
      (add_slot_to_brygada state10 "A" 0 slot10) ⟨"Standard", 60, 1⟩ (by decide) (by decide)⟩
